import Mathlib

/-!
# Verification of the RAG-Autopsy retrieval-and-chunking core

A shallow embedding of `src/chunker.py` and `src/retriever.py`.

Modelling conventions:
* Python floats are modelled by a linear ordered field `K` with a floor
  (for `round`); `math.log` and `math.sqrt` are passed as function
  parameters `lg sq : K → K`, so every definition is executable (witnesses
  instantiate `K := ℚ` with dummy `lg`/`sq`; real-analytic statements
  instantiate `K := ℝ`, `lg := Real.log`, `sq := Real.sqrt`).
* Python dicts are association lists with insertion-order update
  semantics (`dset` updates in place, appends new keys at the end);
  only lookups, value sums and item iteration are used by the source.
* Python's stable sorts (`list.sort(reverse=True)`, `sorted(...,
  reverse=True)`) are modelled by `List.insertionSort`, which is stable,
  with the corresponding descending total preorder; a stable sort of a
  list is extensionally unique, so this is faithful to timsort.
* Python strings are `List Char` in the chunker (where slicing and
  scanning matter) and `String` at the retriever API boundary.
* The possibly non-terminating loops of the source (`Chunker._fixed`
  with a non-positive advance, the `_recursive`/`_merge_splits` mutual
  recursion) are modelled with an explicit fuel parameter returning
  `Option`; `none` for every fuel value is a proof of divergence.
-/

set_option maxRecDepth 4000

/- Batteries marks the `Rat` field operations `@[irreducible]`, which stops
`decide`/`rfl` evaluation of the embedding at `K := ℚ`; restore the default
reducibility so concrete witnesses evaluate. -/
set_option allowUnsafeReducibility true
attribute [semireducible] Rat.add Rat.mul Rat.inv Rat.sub

/-! ## Association lists modelling Python dicts -/

/-- `d.get(t)` as an `Option`. -/
def dlookup {β : Type} : List (String × β) → String → Option β
  | [], _ => none
  | (k, v) :: d, t => if k = t then some v else dlookup d t

/-- `d.get(t, dflt)`. -/
def dget {β : Type} (d : List (String × β)) (t : String) (dflt : β) : β :=
  (dlookup d t).getD dflt

/-- `d[t] = v`: update in place if the key exists, append otherwise
(Python dicts preserve insertion order). -/
def dset {β : Type} : List (String × β) → String → β → List (String × β)
  | [], t, v => [(t, v)]
  | (k, w) :: d, t, v => if k = t then (k, v) :: d else (k, w) :: dset d t v

theorem dlookup_dset_self {β : Type} (d : List (String × β)) (t : String) (v : β) :
    dlookup (dset d t v) t = some v := by
  induction d with
  | nil => simp [dset, dlookup]
  | cons p d ih =>
    obtain ⟨k, w⟩ := p
    by_cases h : k = t
    · simp [dset, dlookup, h]
    · simp [dset, dlookup, h, ih]

theorem dlookup_dset_other {β : Type} (d : List (String × β)) (t c : String) (v : β)
    (h : c ≠ t) : dlookup (dset d t v) c = dlookup d c := by
  induction d with
  | nil =>
    simp only [dset, dlookup]
    rw [if_neg (fun hh : t = c => h hh.symm)]
  | cons p d ih =>
    obtain ⟨k, w⟩ := p
    by_cases hk : k = t
    · subst hk
      simp only [dset, if_pos rfl, dlookup]
      have hc : ¬ k = c := fun hh => h hh.symm
      rw [if_neg hc, if_neg hc]
    · simp only [dset, if_neg hk, dlookup]
      by_cases hc : k = c
      · rw [if_pos hc, if_pos hc]
      · rw [if_neg hc, if_neg hc, ih]

theorem dget_dset_self {β : Type} (d : List (String × β)) (t : String) (v dflt : β) :
    dget (dset d t v) t dflt = v := by
  simp [dget, dlookup_dset_self]

theorem dget_dset_other {β : Type} (d : List (String × β)) (t c : String) (v dflt : β)
    (h : c ≠ t) : dget (dset d t v) c dflt = dget d c dflt := by
  simp [dget, dlookup_dset_other _ _ _ _ h]

/-- Keys of `dset` are the old keys with `t` appended when new. -/
theorem mem_dset {β : Type} (d : List (String × β)) (t : String) (v : β) (p : String × β)
    (h : p ∈ dset d t v) : p.1 = t ∨ p ∈ d := by
  induction d with
  | nil =>
    simp only [dset, List.mem_singleton] at h
    left; rw [h]
  | cons q d ih =>
    obtain ⟨k, w⟩ := q
    by_cases hk : k = t
    · simp only [dset, if_pos hk, List.mem_cons] at h
      rcases h with h | h
      · left; rw [h, hk]
      · right; exact List.mem_cons_of_mem _ h
    · simp only [dset, if_neg hk, List.mem_cons] at h
      rcases h with h | h
      · right; exact List.mem_cons.mpr (Or.inl h)
      · rcases ih h with h' | h'
        · left; exact h'
        · right; exact List.mem_cons_of_mem _ h'

theorem dset_keys_nodup {β : Type} (d : List (String × β)) (t : String) (v : β)
    (h : (d.map Prod.fst).Nodup) : ((dset d t v).map Prod.fst).Nodup := by
  induction d with
  | nil => simp [dset]
  | cons q d ih =>
    obtain ⟨k, w⟩ := q
    simp only [List.map_cons, List.nodup_cons] at h
    by_cases hk : k = t
    · subst hk
      simpa [dset] using And.intro h.1 h.2
    · simp only [dset, if_neg hk, List.map_cons, List.nodup_cons]
      refine ⟨?_, ih h.2⟩
      intro hmem
      rcases List.mem_map.mp hmem with ⟨p, hp, hfst⟩
      rcases mem_dset d t v p hp with h1 | h1
      · exact hk (hfst ▸ h1)
      · exact h.1 (hfst ▸ List.mem_map_of_mem Prod.fst h1)

/-- In a dict with nodup keys, any item's value is what lookup returns. -/
theorem dget_of_mem_nodup {β : Type} (d : List (String × β)) (p : String × β) (dflt : β)
    (hnd : (d.map Prod.fst).Nodup) (h : p ∈ d) : dget d p.1 dflt = p.2 := by
  induction d with
  | nil => simp at h
  | cons q d ih =>
    obtain ⟨k, w⟩ := q
    simp only [List.map_cons, List.nodup_cons] at hnd
    rcases List.mem_cons.mp h with h1 | h1
    · rw [h1]; simp [dget, dlookup]
    · have hk : ¬ k = p.1 := by
        intro hk
        exact hnd.1 (hk ▸ List.mem_map_of_mem Prod.fst h1)
      simp only [dget, dlookup, if_neg hk]
      exact ih hnd.2 h1

/-! ## Sorting: Python's stable descending sorts -/

/-- Descending lexicographic order on `(score, index)` tuples:
`scores.sort(reverse=True)` in `BM25Retriever.retrieve` and
`CosineRetriever.retrieve`. -/
def descPair {K : Type} [LinearOrder K] (a b : K × ℕ) : Prop :=
  b.1 < a.1 ∨ (a.1 = b.1 ∧ b.2 ≤ a.2)

instance {K : Type} [LinearOrder K] : DecidableRel (descPair (K := K)) := by
  intro a b
  unfold descPair
  infer_instance

instance {K : Type} [LinearOrder K] : IsTotal (K × ℕ) descPair := by
  constructor
  intro a b
  rcases lt_trichotomy a.1 b.1 with h | h | h
  · right; left; exact h
  · rcases Nat.le_total b.2 a.2 with h2 | h2
    · left; right; exact ⟨h, h2⟩
    · right; right; exact ⟨h.symm, h2⟩
  · left; left; exact h

instance {K : Type} [LinearOrder K] : IsTrans (K × ℕ) descPair := by
  constructor
  intro a b c hab hbc
  rcases hab with h | ⟨h, h2⟩
  · rcases hbc with h' | ⟨h', h2'⟩
    · left; exact h'.trans h
    · left; exact h' ▸ h
  · rcases hbc with h' | ⟨h', h2'⟩
    · left; exact h ▸ h'
    · right; exact ⟨h.trans h', h2'.trans h2⟩

/-- Descending order on fused `(chunk_id, score)` items:
`sorted(rrf_scores.items(), key=lambda x: x[1], reverse=True)` in
`HybridRetriever.retrieve`. -/
def descSnd {K : Type} [LinearOrder K] (a b : String × K) : Prop := b.2 ≤ a.2

instance {K : Type} [LinearOrder K] : DecidableRel (descSnd (K := K)) := by
  intro a b
  unfold descSnd
  infer_instance

instance {K : Type} [LinearOrder K] : IsTotal (String × K) descSnd := by
  constructor
  intro a b
  rcases le_total a.2 b.2 with h | h
  · right; exact h
  · left; exact h

instance {K : Type} [LinearOrder K] : IsTrans (String × K) descSnd := by
  constructor
  intro a b c hab hbc
  exact hbc.trans hab

/-! ## Tokenization (`_tokenize` of the retrievers, `_tfidf_vector` words) -/

/-- Python `str.isspace` over the characters the source can meet. -/
def pySpace (c : Char) : Bool :=
  c = ' ' || c = '\t' || c = '\n' || c = '\r' || c = '\x0b' || c = '\x0c'

/-- A regex word character `[a-z0-9_]` (the text is lowercased first). -/
def wordChar (c : Char) : Bool :=
  ('a' ≤ c && c ≤ 'z') || ('0' ≤ c && c ≤ '9') || c = '_' || c.isAlpha

/-- A lowercase letter `[a-z]`. -/
def lowerAlpha (c : Char) : Bool := 'a' ≤ c && c ≤ 'z'

/-- One accumulator pass splitting a character list into its maximal runs
of word characters (`current` is the run under construction, reversed). -/
def wordRunsGo (current : List Char) : List Char → List (List Char)
  | [] => if current = [] then [] else [current.reverse]
  | c :: cs =>
    if wordChar c then wordRunsGo (c :: current) cs
    else if current = [] then wordRunsGo [] cs
    else current.reverse :: wordRunsGo [] cs

/-- Maximal runs of word characters. `re.findall(r"\b[a-z]{m,}\b", s)`
keeps exactly the maximal word-character runs that consist of `m` or
more lowercase letters only (a run touching a digit or `_` has no word
boundary inside it). -/
def wordRuns (l : List Char) : List (List Char) := wordRunsGo [] l

/-- `re.findall(r"\b[a-z]{m,}\b", text.lower())`. -/
def findWords (m : ℕ) (text : String) : List String :=
  ((wordRuns (text.toList.map Char.toLower)).filter
    (fun run => run.all lowerAlpha && m ≤ run.length)).map (fun run => String.mk run)

/-- The stopword list shared verbatim by `BM25Retriever._tokenize` and
`CosineRetriever._tf`. -/
def retrStopwords : List String :=
  ["the", "a", "an", "is", "it", "in", "on", "at", "to", "for",
   "of", "and", "or", "but", "with", "by", "from", "be", "are"]

/-- `BM25Retriever._tokenize`. -/
def bmTokenize (text : String) : List String :=
  (findWords 2 text).filter (fun t => ¬ t ∈ retrStopwords)

/-! ## RetrievalResult and the retriever states -/

instance {e a : Type} [DecidableEq e] [DecidableEq a] : DecidableEq (Except e a) := fun x y =>
  match x, y with
  | .ok u, .ok v =>
    if h : u = v then isTrue (by rw [h]) else isFalse (fun hh => h (Except.ok.inj hh))
  | .error u, .error v =>
    if h : u = v then isTrue (by rw [h]) else isFalse (fun hh => h (Except.error.inj hh))
  | .ok _, .error _ => isFalse (fun hh => Except.noConfusion hh)
  | .error _, .ok _ => isFalse (fun hh => Except.noConfusion hh)

/-- An indexed document: a dict with `id` and `text` keys. -/
def Doc : Type := String × String

instance : DecidableEq Doc := by unfold Doc; infer_instance

instance : Inhabited Doc := ⟨("", "")⟩

/-- `RetrievalResult` of `src/retriever.py`. -/
structure RetrievalResult (K : Type) where
  chunk_id : String
  text : String
  score : K
  rank : ℕ
  retriever : String
deriving DecidableEq

instance {K : Type} [Inhabited K] : Inhabited (RetrievalResult K) :=
  ⟨⟨"", "", default, 0, ""⟩⟩

section Retrievers

variable {K : Type} [LinearOrderedField K] [FloorRing K]

/-- Python's `round(x, n)` (idealised to round-half-up on the exact value;
the source only ever rounds for the reported `score` field, after ranking). -/
def pyRound (n : ℕ) (x : K) : K := ((round (x * 10 ^ n) : ℤ) : K) / 10 ^ n

/-- `BM25Retriever` state: `_docs`, `_tf`, `_df`, `_avgdl`. -/
structure BM25State (K : Type) where
  docs : List Doc
  tf : List (List (String × ℕ))
  df : List (String × ℕ)
  avgdl : K

/-- The state `BM25Retriever.__init__` leaves behind. -/
def bm25Fresh : BM25State K := ⟨[], [], [], 0⟩

/-- `tf` accumulation: `tf[t] = tf.get(t, 0) + 1` over a token list. -/
def countsDict (tokens : List String) : List (String × ℕ) :=
  tokens.foldl (fun d t => dset d t (dget d t 0 + 1)) []

/-- `df` accumulation of `BM25Retriever.index`: for each document,
`df[term] += 1` for every distinct term of the document. -/
def bm25Df (docs : List Doc) : List (String × ℕ) :=
  docs.foldl
    (fun df d => (bmTokenize d.2).dedup.foldl (fun df t => dset df t (dget df t 0 + 1)) df) []

/-- `BM25Retriever.index`. -/
def bm25Index (docs : List Doc) : BM25State K :=
  { docs := docs
    tf := docs.map (fun d => countsDict (bmTokenize d.2))
    df := bm25Df docs
    avgdl :=
      if docs.isEmpty then 1
      else ((docs.map (fun d => (bmTokenize d.2).length)).sum : K) / (docs.length : K) }

/-- The BM25 score of one document (`self._tf[i]`) for a tokenized query. -/
def bm25DocScore (lg : K → K) (k1 b : K) (n : ℕ) (avgdl : K) (df : List (String × ℕ))
    (tfi : List (String × ℕ)) (queryTerms : List String) : K :=
  let dl : K := ((tfi.map Prod.snd).sum : ℕ)
  queryTerms.foldl
    (fun score term =>
      match dlookup tfi term with
      | none => score
      | some tfVal =>
        let dfVal : ℕ := dget df term 0
        let idf := lg (((n : K) - (dfVal : K) + 1 / 2) / ((dfVal : K) + 1 / 2) + 1)
        let numerator := (tfVal : K) * (k1 + 1)
        let denominator := (tfVal : K) + k1 * (1 - b + b * dl / avgdl)
        score + idf * numerator / denominator)
    0

/-- The `(score, index)` pairs `BM25Retriever.retrieve` builds before sorting. -/
def bm25Pairs (lg : K → K) (k1 b : K) (st : BM25State K) (query : String) : List (K × ℕ) :=
  (List.range st.docs.length).map
    (fun i => (bm25DocScore lg k1 b st.docs.length st.avgdl st.df (st.tf.getD i []) (bmTokenize query), i))

/-- Turning the sorted, truncated `(score, index)` pairs into
`RetrievalResult`s with dense 1-based ranks. -/
def mkRankedResults (tag : String) (nd : ℕ) (docs : List Doc) (pairs : List (K × ℕ)) :
    List (RetrievalResult K) :=
  pairs.enum.map
    (fun p =>
      { chunk_id := (docs.getD p.2.2 default).1
        text := (docs.getD p.2.2 default).2
        score := pyRound nd p.2.1
        rank := p.1 + 1
        retriever := tag })

/-- `BM25Retriever.retrieve`. -/
def bm25Retrieve (lg : K → K) (k1 b : K) (st : BM25State K) (query : String) (top_k : ℕ) :
    Except String (List (RetrievalResult K)) :=
  if st.docs.isEmpty then .error "Index is empty. Call .index(documents) first."
  else
    .ok (mkRankedResults "bm25" 4 st.docs
      ((List.insertionSort descPair (bm25Pairs lg k1 b st query)).take top_k))

/-- `CosineRetriever` state: `_docs`, `_vectors`. -/
structure CosineState (K : Type) where
  docs : List Doc
  vectors : List (List (String × K))

/-- The state `CosineRetriever.__init__` leaves behind. -/
def cosineFresh : CosineState K := ⟨[], []⟩

/-- `CosineRetriever._tf`: token counts over non-stopword tokens, divided
by the total count (`or 1` when empty). -/
def cosTf (text : String) : List (String × K) :=
  let counts : List (String × K) :=
    (findWords 2 text).foldl
      (fun d t => if t ∈ retrStopwords then d else dset d t (dget d t 0 + 1)) []
  let total := (counts.map Prod.snd).sum
  let total := if total = 0 then 1 else total
  counts.map (fun p => (p.1, p.2 / total))

/-- `CosineRetriever._normalize` (`math.sqrt(...) or 1e-9` guard included). -/
def normalizeD (sq : K → K) (vec : List (String × K)) : List (String × K) :=
  let norm := sq ((vec.map (fun p => p.2 * p.2)).sum)
  let norm := if norm = 0 then 1 / 1000000000 else norm
  vec.map (fun p => (p.1, p.2 / norm))

/-- `CosineRetriever._cosine`: `sum(a.get(k, 0) * v for k, v in b.items())`. -/
def dotD (a b : List (String × K)) : K :=
  (b.map (fun p => dget a p.1 0 * p.2)).sum

/-- The document-frequency dict of `CosineRetriever.index` (iterates the
keys of each per-document tf dict). -/
def cosineDf (tfLists : List (List (String × K))) : List (String × ℕ) :=
  tfLists.foldl (fun df tf => tf.foldl (fun df p => dset df p.1 (dget df p.1 0 + 1)) df) []

/-- `CosineRetriever.index`. -/
def cosineIndex (lg sq : K → K) (docs : List Doc) : CosineState K :=
  let tfLists := docs.map (fun d => cosTf d.2)
  let n := docs.length
  let df := cosineDf tfLists
  { docs := docs
    vectors := tfLists.map (fun tf =>
      normalizeD sq (tf.map (fun p =>
        (p.1, p.2 * lg (((n : K) + 1) / ((dget df p.1 0 : ℕ) + 1)))))) }

/-- The `(sim, index)` pairs `CosineRetriever.retrieve` builds before sorting. -/
def cosinePairs (sq : K → K) (st : CosineState K) (query : String) : List (K × ℕ) :=
  st.vectors.enum.map (fun p => (dotD (normalizeD sq (cosTf query)) p.2, p.1))

/-- `CosineRetriever.retrieve`. -/
def cosineRetrieve (sq : K → K) (st : CosineState K) (query : String) (top_k : ℕ) :
    Except String (List (RetrievalResult K)) :=
  if st.docs.isEmpty then .error "Index is empty. Call .index(documents) first."
  else
    .ok (mkRankedResults "cosine" 4 st.docs
      ((List.insertionSort descPair (cosinePairs sq st query)).take top_k))

/-- `HybridRetriever` state: `alpha`, `rrf_k` and the two sub-retrievers. -/
structure HybridState (K : Type) where
  alpha : K
  rrf_k : ℕ
  bm25 : BM25State K
  cosine : CosineState K

/-- The state `HybridRetriever.__init__` leaves behind. -/
def hybridFresh (alpha : K) (rrf_k : ℕ) : HybridState K :=
  ⟨alpha, rrf_k, bm25Fresh, cosineFresh⟩

/-- `HybridRetriever.index`: index both sub-retrievers on the same documents. -/
def hybridIndex (lg sq : K → K) (alpha : K) (rrf_k : ℕ) (docs : List Doc) : HybridState K :=
  ⟨alpha, rrf_k, bm25Index docs, cosineIndex lg sq docs⟩

/-- One RRF accumulation pass over a result list: each result adds
`1 / (rrf_k + rank)` to `rrf_scores[chunk_id]` and records its text. -/
def rrfAccum (rrf_k : ℕ) (rs : List (RetrievalResult K))
    (acc : List (String × K) × List (String × String)) :
    List (String × K) × List (String × String) :=
  rs.foldl
    (fun acc r =>
      (dset acc.1 r.chunk_id (dget acc.1 r.chunk_id 0 + 1 / ((rrf_k : K) + (r.rank : K))),
       dset acc.2 r.chunk_id r.text))
    acc

/-- The fused `rrf_scores` and `doc_text` dicts of `HybridRetriever.retrieve`. -/
def hybridFuse (rrf_k : ℕ) (bmResults cosResults : List (RetrievalResult K)) :
    List (String × K) × List (String × String) :=
  rrfAccum rrf_k cosResults (rrfAccum rrf_k bmResults ([], []))

/-- `HybridRetriever.retrieve`. -/
def hybridRetrieve (lg sq : K → K) (k1 b : K) (st : HybridState K) (query : String)
    (top_k : ℕ) : Except String (List (RetrievalResult K)) :=
  match bm25Retrieve lg k1 b st.bm25 query (min (top_k * 3) 20) with
  | .error e => .error e
  | .ok bmResults =>
    match cosineRetrieve sq st.cosine query (min (top_k * 3) 20) with
    | .error e => .error e
    | .ok cosResults =>
      .ok ((((List.insertionSort descSnd
          (hybridFuse st.rrf_k bmResults cosResults).1).take top_k).enum).map
        (fun p =>
          { chunk_id := p.2.1
            text := dget (hybridFuse st.rrf_k bmResults cosResults).2 p.2.1 ""
            score := pyRound 6 p.2.2
            rank := p.1 + 1
            retriever := "hybrid_rrf" }))

end Retrievers

/-! ## Helper lemmas about ranked result lists -/

/-- A zero result used as `getD` default in statements. -/
def rdefault {K : Type} [LinearOrderedField K] : RetrievalResult K := ⟨"", "", 0, 0, ""⟩

theorem rank_dense {K : Type} [LinearOrderedField K] {α : Type}
    (f : ℕ × α → RetrievalResult K) (hf : ∀ p, (f p).rank = p.1 + 1) (l : List α)
    (j : ℕ) (hj : j < (l.enum.map f).length) :
    ((l.enum.map f).getD j rdefault).rank = j + 1 := by
  have hj' : j < l.enum.length := by
    simpa using hj
  rw [List.getD_eq_getElem?_getD, List.getElem?_eq_getElem hj, Option.getD_some,
    List.getElem_map, hf]
  have hje : j < l.length := by
    simpa [List.enum_length] using hj'
  rw [List.getElem_enum]

theorem mkRankedResults_length {K : Type} [LinearOrderedField K] [FloorRing K]
    (tag : String) (nd : ℕ) (docs : List Doc) (pairs : List (K × ℕ)) :
    (mkRankedResults tag nd docs pairs).length = pairs.length := by
  simp [mkRankedResults, List.enum_length]

/-- C10: `HybridRetriever.retrieve` never reads `alpha`: two states that
differ only in `alpha` give literally the same result list. -/
theorem C10_alpha_unused {K : Type} [LinearOrderedField K] [FloorRing K]
    (lg sq : K → K) (k1 b a1 a2 : K) (rrfk : ℕ) (docs : List Doc) (q : String) (tk : ℕ) :
    hybridRetrieve lg sq k1 b (hybridIndex lg sq a1 rrfk docs) q tk =
      hybridRetrieve lg sq k1 b (hybridIndex lg sq a2 rrfk docs) q tk := rfl

/-- C4: each retriever's `retrieve` fails with the `"Index is empty"` state
error exactly when the index is fresh or was last built from an empty
document list, and on a non-empty index it returns a ranked result list
(dense 1-based ranks, `min top_k n` results) for every query — in
particular a query matching nothing still gets a result list, not an
error. -/
theorem C4_retrieve_precondition {K : Type} [LinearOrderedField K] [FloorRing K]
    (lg sq : K → K) (k1 b alpha : K) (rrfk : ℕ) (docs : List Doc) (q : String) (tk : ℕ) :
    (∃ e, bm25Retrieve lg k1 b (bm25Fresh (K := K)) q tk = .error e) ∧
    (∃ e, cosineRetrieve sq (cosineFresh (K := K)) q tk = .error e) ∧
    (∃ e, hybridRetrieve lg sq k1 b (hybridFresh (K := K) alpha rrfk) q tk = .error e) ∧
    ((∃ e, bm25Retrieve lg k1 b (bm25Index docs) q tk = .error e) ↔ docs = []) ∧
    ((∃ e, cosineRetrieve sq (cosineIndex lg sq docs) q tk = .error e) ↔ docs = []) ∧
    ((∃ e, hybridRetrieve lg sq k1 b (hybridIndex lg sq alpha rrfk docs) q tk = .error e) ↔
      docs = []) ∧
    (docs ≠ [] → ∃ rs, bm25Retrieve lg k1 b (bm25Index docs) q tk = .ok rs ∧
      rs.length = min tk docs.length ∧
      ∀ j, j < rs.length → (rs.getD j rdefault).rank = j + 1) ∧
    (docs ≠ [] → ∃ rs, cosineRetrieve sq (cosineIndex lg sq docs) q tk = .ok rs ∧
      rs.length = min tk docs.length ∧
      ∀ j, j < rs.length → (rs.getD j rdefault).rank = j + 1) ∧
    (docs ≠ [] → ∃ rs, hybridRetrieve lg sq k1 b (hybridIndex lg sq alpha rrfk docs) q tk = .ok rs ∧
      ∀ j, j < rs.length → (rs.getD j rdefault).rank = j + 1) := by
  refine ⟨⟨_, rfl⟩, ⟨_, rfl⟩, ⟨_, rfl⟩, ?_, ?_, ?_, ?_, ?_, ?_⟩
  · cases docs with
    | nil => exact ⟨fun _ => rfl, fun _ => ⟨_, rfl⟩⟩
    | cons d ds =>
      constructor
      · rintro ⟨e, he⟩
        simp [bm25Retrieve, bm25Index] at he
      · intro h
        simp at h
  · cases docs with
    | nil => exact ⟨fun _ => rfl, fun _ => ⟨_, rfl⟩⟩
    | cons d ds =>
      constructor
      · rintro ⟨e, he⟩
        simp [cosineRetrieve, cosineIndex] at he
      · intro h
        simp at h
  · cases docs with
    | nil => exact ⟨fun _ => rfl, fun _ => ⟨_, rfl⟩⟩
    | cons d ds =>
      constructor
      · rintro ⟨e, he⟩
        simp [hybridRetrieve, hybridIndex, bm25Retrieve, cosineRetrieve, bm25Index,
          cosineIndex, Bind.bind, Except.bind, pure, Except.pure] at he
      · intro h
        simp at h
  · intro h
    match docs, h with
    | d :: ds, _ =>
      refine ⟨_, rfl, ?_, ?_⟩
      · rw [mkRankedResults_length, List.length_take,
          (List.perm_insertionSort descPair _).length_eq]
        simp [bm25Pairs, bm25Index]
      · intro j hj
        exact rank_dense _ (fun _ => rfl) _ j hj
  · intro h
    match docs, h with
    | d :: ds, _ =>
      refine ⟨_, rfl, ?_, ?_⟩
      · rw [mkRankedResults_length, List.length_take,
          (List.perm_insertionSort descPair _).length_eq]
        simp [cosinePairs, cosineIndex, List.enum_length]
      · intro j hj
        exact rank_dense _ (fun _ => rfl) _ j hj
  · intro h
    match docs, h with
    | d :: ds, _ =>
      refine ⟨_, rfl, ?_⟩
      intro j hj
      exact rank_dense _ (fun _ => rfl) _ j hj

theorem map_pair_snd {α β : Type} (f : α → β) (l : List α) :
    (l.map (fun i => (f i, i))).map Prod.snd = l := by
  induction l with
  | nil => rfl
  | cons a l ih => simp [ih]

theorem bm25Pairs_snd {K : Type} [LinearOrderedField K] [FloorRing K]
    (lg : K → K) (k1 b : K) (st : BM25State K) (q : String) :
    (bm25Pairs lg k1 b st q).map Prod.snd = List.range st.docs.length := by
  unfold bm25Pairs
  exact map_pair_snd _ _

/-- C6: `BM25Retriever.retrieve` returns exactly the stable reverse sort of
the `(score, index)` pairs, truncated and ranked; along that sorted list
scores strictly descend or, on exact score ties, the original document
index strictly descends (larger index first); and the whole computation
is a pure function, so a second identical call returns the same list. -/
theorem C6_bm25_ordering {K : Type} [LinearOrderedField K] [FloorRing K]
    (lg : K → K) (k1 b : K) (docs : List Doc) (q : String) (tk : ℕ)
    (results : List (RetrievalResult K))
    (h : bm25Retrieve lg k1 b (bm25Index docs) q tk = .ok results) :
    results = mkRankedResults "bm25" 4 docs
        ((List.insertionSort descPair (bm25Pairs lg k1 b (bm25Index docs) q)).take tk) ∧
    (List.insertionSort descPair (bm25Pairs lg k1 b (bm25Index docs) q)).Perm
        (bm25Pairs lg k1 b (bm25Index docs) q) ∧
    List.Pairwise (fun p2 q2 : K × ℕ => q2.1 < p2.1 ∨ (p2.1 = q2.1 ∧ q2.2 < p2.2))
      (List.insertionSort descPair (bm25Pairs lg k1 b (bm25Index docs) q)) ∧
    bm25Retrieve lg k1 b (bm25Index docs) q tk = .ok results := by
  have hmain : results = mkRankedResults "bm25" 4 docs
      ((List.insertionSort descPair (bm25Pairs lg k1 b (bm25Index docs) q)).take tk) := by
    cases docs with
    | nil => exact absurd h (by simp [bm25Retrieve, bm25Index])
    | cons d ds =>
      have h' : Except.ok (ε := String) (mkRankedResults "bm25" 4 (d :: ds)
          ((List.insertionSort descPair
            (bm25Pairs lg k1 b (bm25Index (d :: ds)) q)).take tk)) = .ok results := h
      injection h' with h''
      exact h''.symm
  refine ⟨hmain, List.perm_insertionSort _ _, ?_, h⟩
  have hsorted := List.sorted_insertionSort descPair (bm25Pairs lg k1 b (bm25Index docs) q)
  have hperm := List.perm_insertionSort descPair (bm25Pairs lg k1 b (bm25Index docs) q)
  have hsnd : ((List.insertionSort descPair
      (bm25Pairs lg k1 b (bm25Index docs) q)).map Prod.snd).Nodup := by
    rw [(hperm.map Prod.snd).nodup_iff, bm25Pairs_snd]
    exact List.nodup_range _
  have hne := List.pairwise_map.mp hsnd
  have hcomb := List.Pairwise.and hsorted hne
  refine hcomb.imp ?_
  rintro a b ⟨hd, hab⟩
  rcases hd with hlt | ⟨heq, hle⟩
  · exact Or.inl hlt
  · exact Or.inr ⟨heq, lt_of_le_of_ne hle (fun hh => hab hh.symm)⟩

/-- Witness for C6 at a concrete two-document corpus: both scores are 0 and
the tie breaks to the larger original index ("b", index 1) first. -/
theorem C6_bm25_ordering_witness :
    ([⟨"b", "y", 0, 1, "bm25"⟩, ⟨"a", "x", (0 : ℚ), 2, "bm25"⟩] :
        List (RetrievalResult ℚ)) = mkRankedResults "bm25" 4 [("a", "x"), ("b", "y")]
        ((List.insertionSort descPair
          (bm25Pairs (fun _ : ℚ => 0) (3/2) (3/4) (bm25Index [("a", "x"), ("b", "y")]) "z")).take 2) :=
  (C6_bm25_ordering (fun _ : ℚ => 0) (3/2) (3/4) [("a", "x"), ("b", "y")] "z" 2
    [⟨"b", "y", 0, 1, "bm25"⟩, ⟨"a", "x", 0, 2, "bm25"⟩] (by decide)).1

/-! ## RRF fusion machinery for C2 -/

theorem dlookup_mem {β : Type} (d : List (String × β)) (c : String) (v : β)
    (h : dlookup d c = some v) : (c, v) ∈ d := by
  induction d with
  | nil => exact absurd h (by simp [dlookup])
  | cons q d ih =>
    obtain ⟨k, w⟩ := q
    by_cases hk : k = c
    · subst hk
      have hw : w = v := by simpa [dlookup] using h
      rw [← hw]
      exact List.mem_cons_self _ _
    · simp only [dlookup, if_neg hk] at h
      exact List.mem_cons_of_mem _ (ih h)

theorem dget_mem_of_ne {β : Type} (d : List (String × β)) (c : String) (dflt : β)
    (h : dget d c dflt ≠ dflt) : (c, dget d c dflt) ∈ d := by
  unfold dget at *
  cases hl : dlookup d c with
  | none => rw [hl] at h; simp at h
  | some v =>
    exact dlookup_mem _ _ _ hl

theorem enumFrom_mkRanked_chunkIds {K : Type} [LinearOrderedField K] [FloorRing K]
    (tag : String) (nd : ℕ) (docs : List Doc) (k : ℕ) (pairs : List (K × ℕ)) :
    ((List.enumFrom k pairs).map (fun p =>
      ({ chunk_id := (docs.getD p.2.2 default).1
         text := (docs.getD p.2.2 default).2
         score := pyRound nd p.2.1
         rank := p.1 + 1
         retriever := tag } : RetrievalResult K))).map RetrievalResult.chunk_id
      = pairs.map (fun p => (docs.getD p.2 default).1) := by
  induction pairs generalizing k with
  | nil => rfl
  | cons p ps ih =>
    rw [List.enumFrom_cons, List.map_cons, List.map_cons, List.map_cons, ih]

theorem mkRankedResults_chunkIds_map {K : Type} [LinearOrderedField K] [FloorRing K]
    (tag : String) (nd : ℕ) (docs : List Doc) (pairs : List (K × ℕ)) :
    (mkRankedResults tag nd docs pairs).map RetrievalResult.chunk_id
      = pairs.map (fun p => (docs.getD p.2 default).1) :=
  enumFrom_mkRanked_chunkIds tag nd docs 0 pairs

theorem mkRankedResults_chunkIds {K : Type} [LinearOrderedField K] [FloorRing K]
    (tag : String) (nd : ℕ) (docs : List Doc) (pairs : List (K × ℕ))
    (hsnd : (pairs.map Prod.snd).Nodup) (hbound : ∀ p ∈ pairs, p.2 < docs.length)
    (hnd : (docs.map Prod.fst).Nodup) :
    ((mkRankedResults tag nd docs pairs).map RetrievalResult.chunk_id).Nodup := by
  rw [mkRankedResults_chunkIds_map]
  have hpair : pairs.Nodup := List.Nodup.of_map _ hsnd
  refine List.Nodup.map_on ?_ hpair
  intro x hx y hy hxy
  have hx2 : x.2 < docs.length := hbound x hx
  have hy2 : y.2 < docs.length := hbound y hy
  have hgx : (docs.map Prod.fst).get ⟨x.2, by simpa using hx2⟩ = (docs.getD x.2 default).1 := by
    rw [List.getD_eq_getElem docs default hx2, List.get_eq_getElem]
    exact List.getElem_map _
  have hgy : (docs.map Prod.fst).get ⟨y.2, by simpa using hy2⟩ = (docs.getD y.2 default).1 := by
    rw [List.getD_eq_getElem docs default hy2, List.get_eq_getElem]
    exact List.getElem_map _
  have hsame : (docs.map Prod.fst).get ⟨x.2, by simpa using hx2⟩
      = (docs.map Prod.fst).get ⟨y.2, by simpa using hy2⟩ := by
    rw [hgx, hgy, hxy]
  have := (hnd.get_inj_iff).mp hsame
  have hxy2 : x.2 = y.2 := by
    simpa using congrArg Fin.val this
  exact List.inj_on_of_nodup_map hsnd hx hy hxy2

theorem mkRankedResults_head {K : Type} [LinearOrderedField K] [FloorRing K]
    (tag : String) (nd : ℕ) (docs : List Doc) (p : K × ℕ) (ps : List (K × ℕ)) :
    mkRankedResults tag nd docs (p :: ps) =
      ⟨(docs.getD p.2 default).1, (docs.getD p.2 default).2, pyRound nd p.1, 1, tag⟩ ::
        (List.enumFrom 1 ps).map (fun q =>
          ⟨(docs.getD q.2.2 default).1, (docs.getD q.2.2 default).2,
            pyRound nd q.2.1, q.1 + 1, tag⟩) := by
  unfold mkRankedResults
  rw [List.enum_cons]
  rfl

theorem enumFrom_map_rank_ge {K : Type} {α : Type} (f : ℕ × α → RetrievalResult K)
    (hf : ∀ p, (f p).rank = p.1 + 1) (k : ℕ) (ps : List α) :
    ∀ r ∈ (List.enumFrom k ps).map f, k + 1 ≤ r.rank := by
  intro r hr
  rcases List.mem_map.mp hr with ⟨q, hq, rfl⟩
  rw [hf]
  obtain ⟨i, x⟩ := q
  exact Nat.succ_le_succ (List.mem_enumFrom hq).1

theorem rrfAccum_dget {K : Type} [LinearOrderedField K] [FloorRing K] (rrfk : ℕ)
    (rs : List (RetrievalResult K)) (acc : List (String × K) × List (String × String))
    (c : String) :
    dget (rrfAccum rrfk rs acc).1 c 0 =
      dget acc.1 c 0 + ((rs.filter (fun r => r.chunk_id = c)).map
        (fun r => 1 / ((rrfk : K) + (r.rank : K)))).sum := by
  induction rs generalizing acc with
  | nil => simp [rrfAccum]
  | cons r rs ih =>
    have step : rrfAccum rrfk (r :: rs) acc = rrfAccum rrfk rs
        (dset acc.1 r.chunk_id (dget acc.1 r.chunk_id 0 + 1 / ((rrfk : K) + (r.rank : K))),
         dset acc.2 r.chunk_id r.text) := rfl
    rw [step, ih]
    by_cases hc : r.chunk_id = c
    · rw [List.filter_cons, if_pos (by simp [hc])]
      subst hc
      rw [dget_dset_self]
      simp only [List.map_cons, List.sum_cons]
      ring
    · rw [List.filter_cons, if_neg (by simp [hc])]
      rw [dget_dset_other _ _ _ _ _ (fun hh => hc hh.symm)]

theorem rrfAccum_keys {K : Type} [LinearOrderedField K] [FloorRing K] (rrfk : ℕ)
    (rs : List (RetrievalResult K)) (acc : List (String × K) × List (String × String))
    (p : String × K) (hp : p ∈ (rrfAccum rrfk rs acc).1) :
    p.1 ∈ acc.1.map Prod.fst ∨ ∃ r ∈ rs, r.chunk_id = p.1 := by
  induction rs generalizing acc with
  | nil => exact Or.inl (List.mem_map_of_mem Prod.fst hp)
  | cons r rs ih =>
    have hp' : p ∈ (rrfAccum rrfk rs
        (dset acc.1 r.chunk_id (dget acc.1 r.chunk_id 0 + 1 / ((rrfk : K) + (r.rank : K))),
         dset acc.2 r.chunk_id r.text)).1 := hp
    rcases ih _ hp' with h | ⟨r', hr', h⟩
    · rcases List.mem_map.mp h with ⟨q, hq, hfst⟩
      rcases mem_dset _ _ _ q hq with h1 | h1
      · exact Or.inr ⟨r, List.mem_cons_self _ _, by rw [← hfst, h1]⟩
      · exact Or.inl (hfst ▸ List.mem_map_of_mem Prod.fst h1)
    · exact Or.inr ⟨r', List.mem_cons_of_mem _ hr', h⟩

theorem rrfAccum_keys_nodup {K : Type} [LinearOrderedField K] [FloorRing K] (rrfk : ℕ)
    (rs : List (RetrievalResult K)) (acc : List (String × K) × List (String × String))
    (h : (acc.1.map Prod.fst).Nodup) : ((rrfAccum rrfk rs acc).1.map Prod.fst).Nodup := by
  induction rs generalizing acc with
  | nil => exact h
  | cons r rs ih =>
    exact ih (dset acc.1 r.chunk_id (dget acc.1 r.chunk_id 0 + 1 / ((rrfk : K) + (r.rank : K))),
      dset acc.2 r.chunk_id r.text) (dset_keys_nodup _ _ _ h)

theorem filter_key_len_le_one {K : Type} [LinearOrderedField K]
    (rs : List (RetrievalResult K)) (hnd : (rs.map RetrievalResult.chunk_id).Nodup)
    (c : String) : (rs.filter (fun r => r.chunk_id = c)).length ≤ 1 := by
  induction rs with
  | nil => simp
  | cons r rs ih =>
    simp only [List.map_cons, List.nodup_cons] at hnd
    by_cases hc : r.chunk_id = c
    · rw [List.filter_cons, if_pos (by simp [hc])]
      have hnil : rs.filter (fun r => r.chunk_id = c) = [] := by
        rw [List.filter_eq_nil_iff]
        intro a ha
        simp only [decide_eq_true_eq]
        intro hac
        apply hnd.1
        rw [hc, ← hac]
        exact List.mem_map_of_mem _ ha
      rw [hnil]
      simp
    · rw [List.filter_cons, if_neg (by simp [hc])]
      exact ih hnd.2

theorem insertionSort_head_max {K : Type} [LinearOrderedField K]
    (l : List (String × K)) (d : String) (S : K)
    (hmem : (d, S) ∈ l) (hval : ∀ p ∈ l, p.1 = d → p.2 = S)
    (hmax : ∀ p ∈ l, p.1 ≠ d → p.2 < S) :
    ∃ rest, List.insertionSort descSnd l = (d, S) :: rest := by
  have hperm := List.perm_insertionSort descSnd l
  have hsorted := List.sorted_insertionSort descSnd l
  cases hsort : List.insertionSort descSnd l with
  | nil =>
    rw [hsort] at hperm
    exact absurd (hperm.symm.mem_iff.mp hmem) (List.not_mem_nil _)
  | cons x xs =>
    rw [hsort] at hperm hsorted
    have hx : x ∈ l := hperm.mem_iff.mp (List.mem_cons_self x xs)
    by_cases hxd : x.1 = d
    · have hx2 : x.2 = S := hval x hx hxd
      have : x = (d, S) := Prod.ext_iff.mpr ⟨hxd, hx2⟩
      exact ⟨xs, by rw [← this]⟩
    · have hx2 : x.2 < S := hmax x hx hxd
      have hmem' : (d, S) ∈ x :: xs := hperm.symm.mem_iff.mp hmem
      rcases List.mem_cons.mp hmem' with h | h
      · exact absurd (congrArg Prod.fst h.symm) hxd
      · have := List.rel_of_sorted_cons hsorted _ h
        exact absurd hx2 (not_lt.mpr this)

theorem hybridRetrieve_eq {K : Type} [LinearOrderedField K] [FloorRing K]
    (lg sq : K → K) (k1 b : K) (st : HybridState K) (q : String) (tk : ℕ)
    (bmRes cosRes : List (RetrievalResult K))
    (hbm : bm25Retrieve lg k1 b st.bm25 q (min (tk * 3) 20) = .ok bmRes)
    (hcs : cosineRetrieve sq st.cosine q (min (tk * 3) 20) = .ok cosRes) :
    hybridRetrieve lg sq k1 b st q tk = .ok
      (((List.insertionSort descSnd (hybridFuse st.rrf_k bmRes cosRes).1).take tk).enum.map
        (fun p => ⟨p.2.1, dget (hybridFuse st.rrf_k bmRes cosRes).2 p.2.1 "",
          pyRound 6 p.2.2, p.1 + 1, "hybrid_rrf"⟩)) := by
  unfold hybridRetrieve
  rw [hbm, hcs]

theorem cosinePairs_snd {K : Type} [LinearOrderedField K] [FloorRing K]
    (sq : K → K) (st : CosineState K) (q : String) :
    (cosinePairs sq st q).map Prod.snd = List.range st.vectors.length := by
  unfold cosinePairs
  rw [List.map_map, ← List.enum_map_fst st.vectors]
  rfl

/-- The shape of one sub-retriever's result list when its head carries id
`d`: a head of rank 1 and id `d`, a tail of ranks `≥ 2`, nodup ids, and
`d`'s filter is exactly the head. -/
theorem subList_facts {K : Type} [LinearOrderedField K] [FloorRing K]
    (tag : String) (nd : ℕ) (docs : List Doc) (pairs : List (K × ℕ)) (fk : ℕ) (d : String)
    (rs : List (RetrievalResult K))
    (hsnd : pairs.map Prod.snd = List.range docs.length)
    (hnd : (docs.map Prod.fst).Nodup)
    (hrs : rs = mkRankedResults tag nd docs ((List.insertionSort descPair pairs).take fk))
    (hd : rs.head?.map RetrievalResult.chunk_id = some d) :
    ∃ h0 t, rs = h0 :: t ∧ h0.chunk_id = d ∧ h0.rank = 1 ∧
      rs.filter (fun r => r.chunk_id = d) = [h0] ∧
      (rs.map RetrievalResult.chunk_id).Nodup ∧
      ∀ r ∈ t, 2 ≤ r.rank := by
  have hperm := List.perm_insertionSort descPair pairs
  have htsnd : (((List.insertionSort descPair pairs).take fk).map Prod.snd).Nodup := by
    refine List.Nodup.sublist ((List.take_sublist fk _).map Prod.snd) ?_
    rw [(hperm.map Prod.snd).nodup_iff, hsnd]
    exact List.nodup_range _
  have htbound : ∀ p ∈ (List.insertionSort descPair pairs).take fk, p.2 < docs.length := by
    intro p hp
    have hp' : p ∈ pairs := hperm.mem_iff.mp (List.take_subset fk _ hp)
    have : p.2 ∈ pairs.map Prod.snd := List.mem_map_of_mem Prod.snd hp'
    rw [hsnd] at this
    exact List.mem_range.mp this
  have hids : (rs.map RetrievalResult.chunk_id).Nodup := by
    rw [hrs]
    exact mkRankedResults_chunkIds tag nd docs _ htsnd htbound hnd
  cases htaken : (List.insertionSort descPair pairs).take fk with
  | nil =>
    rw [htaken] at hrs
    rw [hrs] at hd
    simp [mkRankedResults] at hd
  | cons p ps =>
    rw [htaken, mkRankedResults_head] at hrs
    refine ⟨_, _, hrs, ?_, rfl, ?_, hids, ?_⟩
    · rw [hrs] at hd
      simpa using hd
    · have hdid : (⟨(docs.getD p.2 default).1, (docs.getD p.2 default).2,
          pyRound nd p.1, 1, tag⟩ : RetrievalResult K).chunk_id = d := by
        rw [hrs] at hd
        simpa using hd
      have hdid' : (docs.getD p.2 default).1 = d := hdid
      rw [hrs, List.filter_cons, if_pos (by simpa using hdid)]
      congr 1
      rw [List.filter_eq_nil_iff]
      intro a ha
      simp only [decide_eq_true_eq]
      intro hac
      rw [hrs] at hids
      simp only [List.map_cons, List.nodup_cons] at hids
      apply hids.1
      rw [hdid', ← hac]
      exact List.mem_map_of_mem _ ha
    · intro r hr
      exact enumFrom_map_rank_ge _ (fun _ => rfl) 1 ps r hr

theorem contrib_sum_le {K : Type} [LinearOrderedField K] [FloorRing K] (rrfk : ℕ)
    (l : List (RetrievalResult K))
    (hlen : l.length ≤ 1) (hrank : ∀ r ∈ l, 2 ≤ r.rank) :
    (l.map (fun r => 1 / ((rrfk : K) + (r.rank : K)))).sum ≤ 1 / ((rrfk : K) + 2) := by
  cases l with
  | nil =>
    simp only [List.map_nil, List.sum_nil]
    positivity
  | cons r t =>
    cases t with
    | nil =>
      simp only [List.map_cons, List.map_nil, List.sum_cons, List.sum_nil, add_zero]
      have h2 : 2 ≤ r.rank := hrank r (List.mem_cons_self _ _)
      refine one_div_le_one_div_of_le (by positivity) ?_
      have : ((2 : ℕ) : K) ≤ (r.rank : K) := Nat.cast_le.mpr h2
      push_cast at this
      linarith
    | cons a b => simp at hlen

/-- C2: if the same document id is at rank 1 of both sub-retrievers'
fetch lists (`fetch_k = min(top_k * 3, 20)`), its fused RRF score is
`2 / (rrf_k + 1)`, which strictly exceeds the fused score of every other
candidate, so `HybridRetriever.retrieve` returns it at rank 1. The corpus
is assumed to satisfy the data model (unique document ids). -/
theorem C2_rrf_rank1 {K : Type} [LinearOrderedField K] [FloorRing K]
    (lg sq : K → K) (k1 b alpha : K) (rrfk : ℕ) (docs : List Doc) (q : String) (tk : ℕ)
    (d : String) (bmRes cosRes : List (RetrievalResult K))
    (hnd : (docs.map Prod.fst).Nodup)
    (htk : 1 ≤ tk)
    (hbm : bm25Retrieve lg k1 b (bm25Index docs) q (min (tk * 3) 20) = .ok bmRes)
    (hcs : cosineRetrieve sq (cosineIndex lg sq docs) q (min (tk * 3) 20) = .ok cosRes)
    (hd1 : bmRes.head?.map RetrievalResult.chunk_id = some d)
    (hd2 : cosRes.head?.map RetrievalResult.chunk_id = some d) :
    dget (hybridFuse rrfk bmRes cosRes).1 d 0 = 2 / ((rrfk : K) + 1) ∧
    (∀ p ∈ (hybridFuse rrfk bmRes cosRes).1, p.1 ≠ d → p.2 < 2 / ((rrfk : K) + 1)) ∧
    ∃ r rest, hybridRetrieve lg sq k1 b (hybridIndex lg sq alpha rrfk docs) q tk =
      .ok (r :: rest) ∧ r.chunk_id = d ∧ r.rank = 1 := by
  have hk1 : (0 : K) < (rrfk : K) + 1 := by positivity
  have hk2 : (0 : K) < (rrfk : K) + 2 := by positivity
  have hbmEq : bmRes = mkRankedResults "bm25" 4 docs
      ((List.insertionSort descPair (bm25Pairs lg k1 b (bm25Index docs) q)).take
        (min (tk * 3) 20)) := by
    cases docs with
    | nil => exact absurd hbm (by simp [bm25Retrieve, bm25Index])
    | cons d0 ds =>
      have h' : Except.ok (ε := String) (mkRankedResults "bm25" 4 (d0 :: ds)
          ((List.insertionSort descPair (bm25Pairs lg k1 b (bm25Index (d0 :: ds)) q)).take
            (min (tk * 3) 20))) = .ok bmRes := hbm
      injection h' with h''
      exact h''.symm
  have hcsEq : cosRes = mkRankedResults "cosine" 4 docs
      ((List.insertionSort descPair (cosinePairs sq (cosineIndex lg sq docs) q)).take
        (min (tk * 3) 20)) := by
    cases docs with
    | nil => exact absurd hcs (by simp [cosineRetrieve, cosineIndex])
    | cons d0 ds =>
      have h' : Except.ok (ε := String) (mkRankedResults "cosine" 4 (d0 :: ds)
          ((List.insertionSort descPair (cosinePairs sq (cosineIndex lg sq (d0 :: ds)) q)).take
            (min (tk * 3) 20))) = .ok cosRes := hcs
      injection h' with h''
      exact h''.symm
  obtain ⟨hB, tB, hBrs, hBid, hBrank, hBfilter, hBids, hBtail⟩ :=
    subList_facts "bm25" 4 docs _ (min (tk * 3) 20) d bmRes
      (bm25Pairs_snd lg k1 b (bm25Index docs) q) hnd hbmEq hd1
  obtain ⟨hC, tC, hCrs, hCid, hCrank, hCfilter, hCids, hCtail⟩ :=
    subList_facts "cosine" 4 docs _ (min (tk * 3) 20) d cosRes
      (by rw [cosinePairs_snd]; simp [cosineIndex]) hnd hcsEq hd2
  have hinit : ∀ c, dget (β := K) ([] : List (String × K)) c 0 = 0 := fun c => rfl
  have hfuseD : dget (hybridFuse rrfk bmRes cosRes).1 d 0 = 2 / ((rrfk : K) + 1) := by
    unfold hybridFuse
    rw [rrfAccum_dget, rrfAccum_dget, hinit, hBfilter, hCfilter]
    simp only [List.map_cons, List.map_nil, List.sum_cons, List.sum_nil, add_zero, zero_add]
    rw [hBrank, hCrank]
    rw [div_add_div_same]
    norm_num
  have hkeysN : (((hybridFuse rrfk bmRes cosRes).1.map Prod.fst)).Nodup := by
    unfold hybridFuse
    exact rrfAccum_keys_nodup _ _ _ (rrfAccum_keys_nodup _ _ _ (by simp))
  have hmaxAll : ∀ p ∈ (hybridFuse rrfk bmRes cosRes).1, p.1 ≠ d →
      p.2 < 2 / ((rrfk : K) + 1) := by
    intro p hp hpd
    have hval : p.2 = dget (hybridFuse rrfk bmRes cosRes).1 p.1 0 :=
      (dget_of_mem_nodup _ p 0 hkeysN hp).symm
    have hBrankF : ∀ r ∈ bmRes.filter (fun r => r.chunk_id = p.1), 2 ≤ r.rank := by
      intro r hr
      obtain ⟨hrm, hrc⟩ := List.mem_filter.mp hr
      have hrc' : r.chunk_id = p.1 := by simpa using hrc
      rw [hBrs] at hrm
      rcases List.mem_cons.mp hrm with h | h
      · exfalso
        have hrd : r.chunk_id = d := by rw [h]; exact hBid
        exact hpd (hrc'.symm.trans hrd)
      · exact hBtail r h
    have hCrankF : ∀ r ∈ cosRes.filter (fun r => r.chunk_id = p.1), 2 ≤ r.rank := by
      intro r hr
      obtain ⟨hrm, hrc⟩ := List.mem_filter.mp hr
      have hrc' : r.chunk_id = p.1 := by simpa using hrc
      rw [hCrs] at hrm
      rcases List.mem_cons.mp hrm with h | h
      · exfalso
        have hrd : r.chunk_id = d := by rw [h]; exact hCid
        exact hpd (hrc'.symm.trans hrd)
      · exact hCtail r h
    have hsum : dget (hybridFuse rrfk bmRes cosRes).1 p.1 0 =
        ((bmRes.filter (fun r => r.chunk_id = p.1)).map
          (fun r => 1 / ((rrfk : K) + (r.rank : K)))).sum +
        ((cosRes.filter (fun r => r.chunk_id = p.1)).map
          (fun r => 1 / ((rrfk : K) + (r.rank : K)))).sum := by
      unfold hybridFuse
      rw [rrfAccum_dget, rrfAccum_dget, hinit]
      ring
    have hb1 := contrib_sum_le rrfk _ (filter_key_len_le_one bmRes hBids p.1) hBrankF
    have hb2 := contrib_sum_le rrfk _ (filter_key_len_le_one cosRes hCids p.1) hCrankF
    have hlt : 1 / ((rrfk : K) + 2) + 1 / ((rrfk : K) + 2) < 2 / ((rrfk : K) + 1) := by
      rw [div_add_div_same]
      norm_num
      exact div_lt_div_of_pos_left (by norm_num) hk1 (by linarith)
    rw [hval, hsum]
    linarith
  refine ⟨hfuseD, hmaxAll, ?_⟩
  have hSne : dget (hybridFuse rrfk bmRes cosRes).1 d 0 ≠ 0 := by
    rw [hfuseD]
    positivity
  have hmemd : (d, (2 : K) / ((rrfk : K) + 1)) ∈ (hybridFuse rrfk bmRes cosRes).1 := by
    have := dget_mem_of_ne (hybridFuse rrfk bmRes cosRes).1 d 0 hSne
    rwa [hfuseD] at this
  have hvalAll : ∀ p ∈ (hybridFuse rrfk bmRes cosRes).1, p.1 = d →
      p.2 = 2 / ((rrfk : K) + 1) := by
    intro p hp hpd
    have := dget_of_mem_nodup _ p 0 hkeysN hp
    rw [hpd] at this
    rw [← this, hfuseD]
  obtain ⟨rest2, hsorteq⟩ :=
    insertionSort_head_max (hybridFuse rrfk bmRes cosRes).1 d (2 / ((rrfk : K) + 1))
      hmemd hvalAll hmaxAll
  have hhyb : hybridRetrieve lg sq k1 b (hybridIndex lg sq alpha rrfk docs) q tk = .ok
      (((List.insertionSort descSnd (hybridFuse rrfk bmRes cosRes).1).take tk).enum.map
        (fun p => ⟨p.2.1, dget (hybridFuse rrfk bmRes cosRes).2 p.2.1 "",
          pyRound 6 p.2.2, p.1 + 1, "hybrid_rrf"⟩)) :=
    hybridRetrieve_eq lg sq k1 b (hybridIndex lg sq alpha rrfk docs) q tk bmRes cosRes hbm hcs
  rw [hsorteq] at hhyb
  obtain ⟨tk2, rfl⟩ : ∃ m, tk = m + 1 := ⟨tk - 1, by omega⟩
  rw [List.take_succ_cons, List.enum_cons, List.map_cons] at hhyb
  exact ⟨_, _, hhyb, rfl, rfl⟩

/-- Witness for C2: a two-document corpus in which "b" is rank 1 for both
sub-retrievers; the hybrid result puts "b" first with fused score 2/61. -/
theorem C2_rrf_rank1_witness :
    dget (hybridFuse 60
        [⟨"b", "dog", 0, 1, "bm25"⟩, ⟨"a", "cat", (0 : ℚ), 2, "bm25"⟩]
        [⟨"b", "dog", 0, 1, "cosine"⟩, ⟨"a", "cat", (0 : ℚ), 2, "cosine"⟩]).1 "b" 0 =
      2 / (((60 : ℕ) : ℚ) + 1) ∧
    (∀ p ∈ (hybridFuse 60
        [⟨"b", "dog", 0, 1, "bm25"⟩, ⟨"a", "cat", (0 : ℚ), 2, "bm25"⟩]
        [⟨"b", "dog", 0, 1, "cosine"⟩, ⟨"a", "cat", (0 : ℚ), 2, "cosine"⟩]).1,
      p.1 ≠ "b" → p.2 < 2 / (((60 : ℕ) : ℚ) + 1)) ∧
    ∃ r rest, hybridRetrieve (fun _ : ℚ => 0) (fun _ : ℚ => 0) (3/2) (3/4)
        (hybridIndex (fun _ : ℚ => 0) (fun _ : ℚ => 0) (1/2) 60 [("a", "cat"), ("b", "dog")])
        "dog" 1 = .ok (r :: rest) ∧ r.chunk_id = "b" ∧ r.rank = 1 :=
  C2_rrf_rank1 (fun _ : ℚ => 0) (fun _ : ℚ => 0) (3/2) (3/4) (1/2) 60
    [("a", "cat"), ("b", "dog")] "dog" 1 "b"
    [⟨"b", "dog", 0, 1, "bm25"⟩, ⟨"a", "cat", 0, 2, "bm25"⟩]
    [⟨"b", "dog", 0, 1, "cosine"⟩, ⟨"a", "cat", 0, 2, "cosine"⟩]
    (by decide) (by decide) (by decide) (by decide) (by decide) (by decide)

/-! ## Chunker (`src/chunker.py`) -/

/-- Python `str.strip()`. -/
def pyStrip (l : List Char) : List Char :=
  ((l.dropWhile pySpace).reverse.dropWhile pySpace).reverse

/-- Python `str.split(sep)` for a one-character separator (keeps empty
pieces, as the source's `text.split("\n")` does). -/
def splitOnCh (sep : Char) : List Char → List (List Char)
  | [] => [[]]
  | c :: rest =>
    if c = sep then [] :: splitOnCh sep rest
    else
      match splitOnCh sep rest with
      | [] => [[c]]
      | p :: ps => (c :: p) :: ps

/-- `re.split(r"\n\n+", text)`: separators are the maximal runs of two or
more newlines. `acc` is the current piece reversed; `pend` counts newlines
read but not yet committed to either side. -/
def splitParasGo (acc : List Char) (pend : ℕ) : List Char → List (List Char)
  | [] =>
    if 2 ≤ pend then [acc.reverse, []]
    else [(List.replicate pend '\n' ++ acc).reverse]
  | c :: cs =>
    if c = '\n' then splitParasGo acc (pend + 1) cs
    else if 2 ≤ pend then acc.reverse :: splitParasGo [c] 0 cs
    else splitParasGo (c :: (List.replicate pend '\n' ++ acc)) 0 cs

def splitParas (text : List Char) : List (List Char) := splitParasGo [] 0 text

def sentTerm (c : Char) : Bool := c = '.' || c = '!' || c = '?'

def sentNext (c : Char) : Bool :=
  ('A' ≤ c && c ≤ 'Z') || ('0' ≤ c && c ≤ '9') || c = '-'

/-- The regex split on `(?<=[.!?])\s+(?=[A-Z0-9\-])` in `_split_sentences`:
a separator is a maximal whitespace run whose preceding character is a
sentence terminator and whose following character is an uppercase letter,
digit or hyphen. `acc` is the current piece reversed; while `inWs` is set,
`ws` holds a whitespace run (reversed) whose preceding character was a
terminator. -/
def sentScan (acc ws : List Char) (inWs : Bool) : List Char → List (List Char)
  | [] => if inWs then [(ws ++ acc).reverse] else [acc.reverse]
  | c :: cs =>
    if inWs then
      if pySpace c then sentScan acc (c :: ws) true cs
      else if sentNext c then acc.reverse :: sentScan [c] [] false cs
      else sentScan (c :: (ws ++ acc)) [] false cs
    else
      if pySpace c && (match acc with | a :: _ => sentTerm a | [] => false) then
        sentScan acc [c] true cs
      else sentScan (c :: acc) [] false cs

/-- `Chunker._split_sentences`: regex split, then each piece split further
on newlines, stripped, empties dropped. -/
def splitSentences (text : List Char) : List (List Char) :=
  ((sentScan [] [] false text).map
    (fun s => ((splitOnCh '\n' s).map pyStrip).filter (fun p => p ≠ []))).flatten

/-- Python `sep.join(pieces)`. -/
def joinSep (sep : List Char) : List (List Char) → List Char
  | [] => []
  | [x] => x
  | x :: xs => x ++ (sep ++ joinSep sep xs)

/-- `Chunker._sentence`: accumulate sentences, emit at `max_sentences`,
carry the last sentence of the emitted chunk forward. -/
def sentGo (maxS : ℕ) (buffer : List (List Char)) : List (List Char) → List (List Char)
  | [] => if buffer.isEmpty then [] else [joinSep [' '] buffer]
  | s :: ss =>
    if maxS ≤ (buffer ++ [s]).length then
      joinSep [' '] (buffer ++ [s]) :: sentGo maxS [(buffer ++ [s]).getLast?.getD []] ss
    else sentGo maxS (buffer ++ [s]) ss

/-- The buffers underlying `sentGo` (used to state the C5 invariant). -/
def sentBufsGo (maxS : ℕ) (buffer : List (List Char)) :
    List (List Char) → List (List (List Char))
  | [] => if buffer.isEmpty then [] else [buffer]
  | s :: ss =>
    if maxS ≤ (buffer ++ [s]).length then
      (buffer ++ [s]) :: sentBufsGo maxS [(buffer ++ [s]).getLast?.getD []] ss
    else sentBufsGo maxS (buffer ++ [s]) ss

/-- The chunker's own stopword list (`Chunker._tfidf_vector`). -/
def chunkerStopwords : List String :=
  ["the", "and", "for", "that", "this", "with", "are", "was",
   "not", "have", "has", "had", "its", "may", "per", "any"]

/-- `Chunker._tfidf_vector` (words `\b[a-z]{3,}\b`, frequency-normalized,
no IDF). -/
def tfidfVector {K : Type} [LinearOrderedField K] (text : List Char) : List (String × K) :=
  let counts : List (String × K) :=
    (findWords 3 (String.mk text)).foldl
      (fun d w => if w ∈ chunkerStopwords then d else dset d w (dget d w 0 + 1)) []
  let total := (counts.map Prod.snd).sum
  let total := if total = 0 then 1 else total
  counts.map (fun p => (p.1, p.2 / total))

/-- `Chunker._cosine` (`math.sqrt(...) or 1e-9` guards included). -/
def chunkCosine {K : Type} [LinearOrderedField K] (sq : K → K)
    (a b : List (String × K)) : K :=
  let dot := ((a.filter (fun p => (dlookup b p.1).isSome)).map
    (fun p => p.2 * dget b p.1 0)).sum
  let na := sq ((a.map (fun p => p.2 * p.2)).sum)
  let na := if na = 0 then 1 / 1000000000 else na
  let nb := sq ((b.map (fun p => p.2 * p.2)).sum)
  let nb := if nb = 0 then 1 / 1000000000 else nb
  dot / (na * nb)

/-- The walk of `Chunker._semantic`: similarity is between adjacent
sentence vectors only. -/
def semGo {K : Type} [LinearOrderedField K] (sq : K → K) (th : K)
    (prevVec : List (String × K)) (buffer : List (List Char)) :
    List (List Char × List (String × K)) → List (List Char)
  | [] => [joinSep [' '] buffer]
  | (s, v) :: rest =>
    if th ≤ chunkCosine sq prevVec v then semGo sq th v (buffer ++ [s]) rest
    else joinSep [' '] buffer :: semGo sq th v [s] rest

/-- `Chunker._semantic`. -/
def semanticStrategy {K : Type} [LinearOrderedField K] (sq : K → K) (th : K)
    (text : List Char) : List (List Char) :=
  let sentences := splitSentences text
  if sentences.length ≤ 1 then sentences
  else
    let vecs := sentences.map (fun s => tfidfVector (K := K) s)
    match sentences.zip vecs with
    | [] => []
    | (s, v) :: rest => semGo sq th v [s] rest

/-- `Chunker._fixed` as a fuel-indexed loop: the source advances `start`
by `chunk_size - overlap` with no clamp, so the loop need not terminate;
`none` means the fuel ran out (at every fuel: divergence). -/
def fixedF (cs ov : ℕ) : ℕ → ℕ → List Char → Option (List (List Char))
  | 0, _, _ => none
  | fuel + 1, start, text =>
    if start < text.length then
      (fixedF cs ov fuel (start + (cs - ov)) text).map
        (fun rest => (text.drop start).take cs :: rest)
    else some []

/-- The merge loop `Chunker._merge_splits`, parameterized by the recursive
splitter (`rec` is `_recursive` at the remaining fuel). `current` is the
running buffer. -/
def mergeGoF (rec : List Char → ℕ → Option (List (List Char))) (maxSize : ℕ)
    (sep : List Char) (current : List Char) :
    List (List Char) → Option (List (List Char))
  | [] => some (if current = [] then [] else [current])
  | part :: ps =>
    let candidate := if current = [] then part else pyStrip (current ++ sep ++ part)
    if candidate.length ≤ maxSize then mergeGoF rec maxSize sep candidate ps
    else
      let flushed := if current = [] then [] else [current]
      if maxSize < part.length then
        match rec part maxSize with
        | none => none
        | some sub =>
          (mergeGoF rec maxSize sep (sub.getLast?.getD []) ps).map
            (fun rest => flushed ++ sub.dropLast ++ rest)
      else (mergeGoF rec maxSize sep part ps).map (fun rest => flushed ++ rest)

/-- `Chunker._recursive` with fuel: paragraphs, newlines, sentences, then
words, merged back by `_merge_splits`, which recurses on oversized parts. -/
def recursiveF : ℕ → List Char → ℕ → Option (List (List Char))
  | 0, _, _ => none
  | fuel + 1, text, maxSize =>
    if text.length ≤ maxSize then some [text]
    else
      let parts := splitParas text
      if 1 < parts.length then mergeGoF (recursiveF fuel) maxSize ['\n', '\n'] [] parts
      else
        let parts := splitOnCh '\n' text
        if 1 < parts.length then mergeGoF (recursiveF fuel) maxSize ['\n'] [] parts
        else
          let parts := splitSentences text
          if 1 < parts.length then mergeGoF (recursiveF fuel) maxSize [' '] [] parts
          else mergeGoF (recursiveF fuel) maxSize [' '] [] (splitOnCh ' ' text)

/-- The `Chunk` record (metadata omitted: no claim concerns it). -/
structure Chunk where
  text : List Char
  index : ℕ
  start_char : ℤ
  end_char : ℤ
  strategy : String
deriving DecidableEq

/-- First index at which `sub` occurs in the remaining haystack (offset `i`). -/
def firstOccAux (sub : List Char) : List Char → ℕ → Option ℕ
  | [], i => if sub.isPrefixOf [] then some i else none
  | hay@(_ :: t), i => if sub.isPrefixOf hay then some i else firstOccAux sub t (i + 1)

/-- Python `str.find`: first occurrence index, `-1` when absent. -/
def pyFind (hay sub : List Char) : ℤ :=
  match firstOccAux sub hay 0 with
  | some i => (i : ℤ)
  | none => -1

/-- The `Chunk` list comprehension in `Chunker.chunk`: `enumerate` indexes
before the `if t.strip()` filter; `start_char` is `text.find(t)`. -/
def mkChunks (strategy : String) (text : List Char) (raw : List (List Char)) : List Chunk :=
  raw.enum.filterMap (fun p =>
    if pyStrip p.2 = [] then none
    else some { text := p.2, index := p.1, start_char := pyFind text p.2,
                end_char := pyFind text p.2 + p.2.length, strategy := strategy })

/-- The `Chunker` constructor parameters. -/
structure ChunkerCfg (K : Type) where
  strategy : String
  chunkSize : ℕ
  overlap : ℕ
  maxSentences : ℕ
  simThreshold : K

/-- `Chunker.chunk` (fuel-indexed through the fixed/recursive strategies). -/
def chunkF {K : Type} [LinearOrderedField K] (sq : K → K) (cfg : ChunkerCfg K)
    (fuel : ℕ) (text0 : List Char) : Option (List Chunk) :=
  let text := pyStrip text0
  if text = [] then some []
  else
    (match cfg.strategy with
      | "fixed" => fixedF cfg.chunkSize cfg.overlap fuel 0 text
      | "sentence" => some (sentGo cfg.maxSentences [] (splitSentences text))
      | "recursive" => recursiveF fuel text cfg.chunkSize
      | "semantic" => some (semanticStrategy sq cfg.simThreshold text)
      | _ => none).map (mkChunks cfg.strategy text)

/-! ## C3: termination of the fixed strategy -/

/-- With `overlap ≥ chunk_size` the advance is 0 and `_fixed` never
finishes: every fuel value runs out. -/
theorem fixedF_stuck (n : ℕ) : fixedF 1 1 n 0 ("ab".toList) = none := by
  induction n with
  | zero => rfl
  | succ m ih =>
    have step : fixedF 1 1 (m + 1) 0 ("ab".toList) =
        (fixedF 1 1 m 0 ("ab".toList)).map
          (fun rest => (("ab".toList).drop 0).take 1 :: rest) := rfl
    rw [step, ih]
    rfl

/-- C3 counterexample: with `chunk_size = 1`, `overlap = 1` the fixed
strategy never terminates on `"ab"` — there is no fuel at which
`Chunker.chunk` returns. -/
theorem C3_counterexample :
    ¬ ∃ fuel chunks, chunkF (fun _ : ℚ => 0) ⟨"fixed", 1, 1, 5, 17/20⟩ fuel
      ("ab".toList) = some chunks := by
  rintro ⟨fuel, chunks, h⟩
  have hstuck := fixedF_stuck fuel
  have hstep : chunkF (fun _ : ℚ => 0) ⟨"fixed", 1, 1, 5, 17/20⟩ fuel ("ab".toList) =
      (fixedF 1 1 fuel 0 ("ab".toList)).map (mkChunks "fixed" ("ab".toList)) := rfl
  rw [hstep, hstuck] at h
  exact Option.noConfusion h

theorem fixedF_terminates (cs ov : ℕ) (text : List Char) (h : ov < cs) :
    ∀ fuel start, text.length - start < fuel →
      ∃ r, fixedF cs ov fuel start text = some r := by
  intro fuel
  induction fuel with
  | zero =>
    intro start h0
    omega
  | succ n ih =>
    intro start hlt
    by_cases hs : start < text.length
    · obtain ⟨r, hr⟩ := ih (start + (cs - ov)) (by omega)
      refine ⟨(text.drop start).take cs :: r, ?_⟩
      have step : fixedF cs ov (n + 1) start text =
          if start < text.length then
            (fixedF cs ov n (start + (cs - ov)) text).map
              (fun rest => (text.drop start).take cs :: rest)
          else some [] := rfl
      rw [step, if_pos hs, hr]
      rfl
    · refine ⟨[], ?_⟩
      have step : fixedF cs ov (n + 1) start text =
          if start < text.length then
            (fixedF cs ov n (start + (cs - ov)) text).map
              (fun rest => (text.drop start).take cs :: rest)
          else some [] := rfl
      rw [step, if_neg hs]

/-- C3 amended: the source does not clamp the advance, so the fixed
strategy terminates exactly when the configuration keeps the advance
positive: for `overlap < chunk_size`, `Chunker.chunk` completes on every
input (fuel `len + 1` suffices). -/
theorem C3_fixed_terminates {K : Type} [LinearOrderedField K] (sq : K → K)
    (cs ov maxS : ℕ) (th : K) (text : List Char) (h : ov < cs) :
    ∃ chunks, chunkF sq ⟨"fixed", cs, ov, maxS, th⟩ ((pyStrip text).length + 1) text
      = some chunks := by
  by_cases ht : pyStrip text = []
  · refine ⟨[], ?_⟩
    unfold chunkF
    rw [if_pos ht]
  · obtain ⟨r, hr⟩ := fixedF_terminates cs ov (pyStrip text) h ((pyStrip text).length + 1) 0
      (by omega)
    refine ⟨mkChunks "fixed" (pyStrip text) r, ?_⟩
    unfold chunkF
    rw [if_neg ht]
    show (fixedF cs ov ((pyStrip text).length + 1) 0 (pyStrip text)).map
      (mkChunks "fixed" (pyStrip text)) = _
    rw [hr]
    rfl

/-- Witness for C3 amended at `chunk_size = 2`, `overlap = 1`, text "abc". -/
theorem C3_fixed_terminates_witness :
    ∃ chunks, chunkF (fun _ : ℚ => 0) ⟨"fixed", 2, 1, 5, 17/20⟩
      ((pyStrip ("abc".toList)).length + 1) ("abc".toList) = some chunks :=
  C3_fixed_terminates (fun _ : ℚ => 0) 2 1 5 (17/20) ("abc".toList) (by decide)

/-! ## C8: coverage of the fixed strategy with overlap 0 -/

theorem fixedF_flatten (cs : ℕ) (text : List Char) :
    ∀ fuel start r, fixedF cs 0 fuel start text = some r →
      r.flatten = text.drop start := by
  intro fuel
  induction fuel with
  | zero =>
    intro start r h
    exact Option.noConfusion h
  | succ n ih =>
    intro start r h
    have step : fixedF cs 0 (n + 1) start text =
        if start < text.length then
          (fixedF cs 0 n (start + (cs - 0)) text).map
            (fun rest => (text.drop start).take cs :: rest)
        else some [] := rfl
    rw [step] at h
    by_cases hs : start < text.length
    · rw [if_pos hs] at h
      rcases Option.map_eq_some'.mp h with ⟨rest, hrest, hr⟩
      subst hr
      have hdrop := ih (start + (cs - 0)) rest hrest
      simp only [List.flatten_cons, hdrop]
      have : cs - 0 = cs := rfl
      rw [this]
      have hd : text.drop (start + cs) = (text.drop start).drop cs := by
        rw [List.drop_drop]
      rw [hd, List.take_append_drop]
    · rw [if_neg hs] at h
      have hr : r = [] := by
        injection h with h'
        exact h'.symm
      subst hr
      simp only [List.flatten_nil]
      rw [List.drop_eq_nil_of_le (by omega)]

/-- The chunk constructor of `Chunker.chunk` keeps every raw piece whose
strip is non-empty, preserving texts verbatim. -/
theorem mkChunks_text_all (strategy : String) (text : List Char) :
    ∀ (k : ℕ) (raw : List (List Char)), (∀ p ∈ raw, pyStrip p ≠ []) →
      (((List.enumFrom k raw).filterMap (fun p =>
        if pyStrip p.2 = [] then none
        else some ({ text := p.2, index := p.1, start_char := pyFind text p.2,
                     end_char := pyFind text p.2 + p.2.length,
                     strategy := strategy } : Chunk))).map Chunk.text) = raw := by
  intro k raw
  induction raw generalizing k with
  | nil => intro _; rfl
  | cons p ps ih =>
    intro hnw
    rw [List.enumFrom_cons, List.filterMap_cons]
    rw [if_neg (hnw p (List.mem_cons_self _ _))]
    rw [List.map_cons]
    rw [ih (k + 1) (fun q hq => hnw q (List.mem_cons_of_mem _ hq))]

theorem mkChunks_texts (strategy : String) (text : List Char) (raw : List (List Char))
    (hnw : ∀ p ∈ raw, pyStrip p ≠ []) :
    (mkChunks strategy text raw).map Chunk.text = raw :=
  mkChunks_text_all strategy text 0 raw hnw

/-- C8 amended: for the fixed strategy with `overlap = 0` (and a positive
`chunk_size`), concatenating the chunk texts reproduces the trimmed
original exactly, PROVIDED no chunk-size window consists entirely of
whitespace; all-whitespace windows are dropped by `Chunker.chunk`'s
`if t.strip()` filter, so in general the concatenation loses them. -/
theorem C8_fixed_concat {K : Type} [LinearOrderedField K] (sq : K → K)
    (cs maxS : ℕ) (th : K) (text : List Char) (raw : List (List Char))
    (hcs : 1 ≤ cs)
    (hraw : fixedF cs 0 ((pyStrip text).length + 1) 0 (pyStrip text) = some raw)
    (hnw : ∀ p ∈ raw, pyStrip p ≠ []) :
    ∃ chunks, chunkF sq ⟨"fixed", cs, 0, maxS, th⟩ ((pyStrip text).length + 1) text
        = some chunks ∧
      (chunks.map Chunk.text).flatten = pyStrip text := by
  by_cases ht : pyStrip text = []
  · refine ⟨[], ?_, ?_⟩
    · unfold chunkF
      rw [if_pos ht]
    · rw [ht]
      rfl
  · refine ⟨mkChunks "fixed" (pyStrip text) raw, ?_, ?_⟩
    · unfold chunkF
      rw [if_neg ht]
      show (fixedF cs 0 ((pyStrip text).length + 1) 0 (pyStrip text)).map
        (mkChunks "fixed" (pyStrip text)) = _
      rw [hraw]
      rfl
    · rw [mkChunks_texts _ _ _ hnw]
      have := fixedF_flatten cs (pyStrip text) ((pyStrip text).length + 1) 0 raw hraw
      simpa using this

/-- Witness for C8 amended on "abcd" with `chunk_size = 2`. -/
theorem C8_fixed_concat_witness :
    ∃ chunks, chunkF (fun _ : ℚ => 0) ⟨"fixed", 2, 0, 5, 17/20⟩
        ((pyStrip ("abcd".toList)).length + 1) ("abcd".toList) = some chunks ∧
      (chunks.map Chunk.text).flatten = pyStrip ("abcd".toList) :=
  C8_fixed_concat (fun _ : ℚ => 0) 2 5 (17/20) ("abcd".toList)
    ["ab".toList, "cd".toList] (by decide) (by decide) (by decide)

/-- C8 counterexample: an interior all-whitespace window is dropped, so
the concatenation does not reproduce the trimmed text. -/
theorem C8_counterexample :
    chunkF (fun _ : ℚ => 0) ⟨"fixed", 2, 0, 5, 17/20⟩ 99 ("ab    cd".toList) =
      some [⟨"ab".toList, 0, 0, 2, "fixed"⟩, ⟨"cd".toList, 3, 6, 8, "fixed"⟩] ∧
    ¬ (([⟨"ab".toList, 0, 0, 2, "fixed"⟩,
         (⟨"cd".toList, 3, 6, 8, "fixed"⟩ : Chunk)].map Chunk.text).flatten
        = pyStrip ("ab    cd".toList)) := by
  constructor
  · decide
  · decide

/-! ## C9: chunk offsets via `text.find` -/

theorem isPrefixOf_nil_iff (sub : List Char) : sub.isPrefixOf ([] : List Char) = true ↔ sub = [] := by
  cases sub with
  | nil => simp [List.isPrefixOf]
  | cons c t => simp [List.isPrefixOf]

theorem isPrefixOf_length_le (sub l : List Char) (h : sub.isPrefixOf l = true) :
    sub.length ≤ l.length := by
  have hp : sub <+: l := List.isPrefixOf_iff_prefix.mp h
  exact hp.length_le

theorem firstOccAux_some_spec (sub : List Char) :
    ∀ (hay : List Char) (i j : ℕ), firstOccAux sub hay i = some j →
      i ≤ j ∧ j - i + sub.length ≤ hay.length ∧
      sub.isPrefixOf (hay.drop (j - i)) = true ∧
      ∀ m < j - i, ¬ sub.isPrefixOf (hay.drop m) = true := by
  intro hay
  induction hay with
  | nil =>
    intro i j h
    unfold firstOccAux at h
    by_cases hp : sub.isPrefixOf ([] : List Char) = true
    · rw [if_pos hp] at h
      injection h with h'
      subst h'
      refine ⟨le_refl _, ?_, ?_, ?_⟩
      · have : sub = [] := (isPrefixOf_nil_iff sub).mp hp
        simp [this]
      · simpa using hp
      · intro m hm
        omega
    · rw [if_neg hp] at h
      exact Option.noConfusion h
  | cons c t ih =>
    intro i j h
    unfold firstOccAux at h
    by_cases hp : sub.isPrefixOf (c :: t) = true
    · rw [if_pos hp] at h
      injection h with h'
      subst h'
      refine ⟨le_refl _, ?_, ?_, ?_⟩
      · have := isPrefixOf_length_le sub (c :: t) hp
        simpa using this
      · simpa using hp
      · intro m hm
        omega
    · rw [if_neg hp] at h
      obtain ⟨h1, h2, h3, h4⟩ := ih (i + 1) j h
      have hij : i + 1 ≤ j := h1
      refine ⟨by omega, ?_, ?_, ?_⟩
      · simp only [List.length_cons]
        omega
      · have : j - i = (j - (i + 1)) + 1 := by omega
        rw [this, List.drop_succ_cons]
        exact h3
      · intro m hm
        cases m with
        | zero =>
          simpa using hp
        | succ m' =>
          rw [List.drop_succ_cons]
          exact h4 m' (by omega)

theorem firstOccAux_none_spec (sub : List Char) :
    ∀ (hay : List Char) (i : ℕ), firstOccAux sub hay i = none →
      ∀ m, ¬ sub.isPrefixOf (hay.drop m) = true := by
  intro hay
  induction hay with
  | nil =>
    intro i h m
    unfold firstOccAux at h
    by_cases hp : sub.isPrefixOf ([] : List Char) = true
    · rw [if_pos hp] at h
      exact Option.noConfusion h
    · rw [if_neg hp] at h
      simpa [List.drop_nil] using hp
  | cons c t ih =>
    intro i h m
    unfold firstOccAux at h
    by_cases hp : sub.isPrefixOf (c :: t) = true
    · rw [if_pos hp] at h
      exact Option.noConfusion h
    · rw [if_neg hp] at h
      cases m with
      | zero => simpa using hp
      | succ m' =>
        rw [List.drop_succ_cons]
        exact ih (i + 1) h m'

/-- All chunks built by the comprehension in `Chunker.chunk` satisfy the
offset dichotomy. -/
theorem mkChunks_offsets (strategy : String) (t : List Char) (raw : List (List Char)) :
    ∀ c ∈ mkChunks strategy t raw,
      c.end_char = c.start_char + c.text.length ∧
      ((∃ m, c.text.isPrefixOf (t.drop m) = true) →
        0 ≤ c.start_char ∧ c.start_char + (c.text.length : ℤ) ≤ t.length ∧
        c.text.isPrefixOf (t.drop c.start_char.toNat) = true ∧
        ∀ m < c.start_char.toNat, ¬ c.text.isPrefixOf (t.drop m) = true) ∧
      ((¬ ∃ m, c.text.isPrefixOf (t.drop m) = true) → c.start_char = -1) := by
  intro c hc
  rcases List.mem_filterMap.mp hc with ⟨p, hp, hsome⟩
  by_cases hstrip : pyStrip p.2 = []
  · rw [if_pos hstrip] at hsome
    exact Option.noConfusion hsome
  · rw [if_neg hstrip] at hsome
    injection hsome with hcdef
    subst hcdef
    refine ⟨rfl, ?_, ?_⟩
    · intro hocc
      cases hf : firstOccAux p.2 t 0 with
      | none =>
        exfalso
        obtain ⟨m, hm⟩ := hocc
        exact firstOccAux_none_spec p.2 t 0 hf m hm
      | some j =>
        obtain ⟨_, hlen, hpre, hmin⟩ := firstOccAux_some_spec p.2 t 0 j hf
        have hfind : pyFind t p.2 = (j : ℤ) := by
          unfold pyFind
          rw [hf]
        refine ⟨?_, ?_, ?_, ?_⟩
        · simp [hfind]
        · simp only [hfind]
          have : j - 0 + p.2.length ≤ t.length := hlen
          omega
        · simp only [hfind, Int.toNat_natCast]
          simpa using hpre
        · intro m hm
          simp only [hfind, Int.toNat_natCast] at hm
          exact hmin m (by omega)
    · intro hnone
      cases hf : firstOccAux p.2 t 0 with
      | none =>
        unfold pyFind
        rw [hf]
      | some j =>
        exfalso
        obtain ⟨_, _, hpre, _⟩ := firstOccAux_some_spec p.2 t 0 j hf
        exact hnone ⟨j - 0, hpre⟩

/-- C9 amended: `end_char = start_char + len(text)` always; when the
chunk's text occurs in the trimmed input, `start_char` is the first
occurrence index and both offsets are valid (`0 ≤ start ≤ end ≤ len`);
when the (separator-rejoined) text does not occur, `str.find` returns -1,
so `start_char = -1` and the offsets are not valid positions. -/
theorem C9_offsets {K : Type} [LinearOrderedField K] (sq : K → K) (cfg : ChunkerCfg K)
    (fuel : ℕ) (text0 : List Char) (chunks : List Chunk)
    (h : chunkF sq cfg fuel text0 = some chunks) :
    ∀ c ∈ chunks,
      c.end_char = c.start_char + c.text.length ∧
      ((∃ m, c.text.isPrefixOf ((pyStrip text0).drop m) = true) →
        0 ≤ c.start_char ∧ c.start_char + (c.text.length : ℤ) ≤ (pyStrip text0).length ∧
        c.text.isPrefixOf ((pyStrip text0).drop c.start_char.toNat) = true ∧
        ∀ m < c.start_char.toNat, ¬ c.text.isPrefixOf ((pyStrip text0).drop m) = true) ∧
      ((¬ ∃ m, c.text.isPrefixOf ((pyStrip text0).drop m) = true) → c.start_char = -1) := by
  unfold chunkF at h
  by_cases ht : pyStrip text0 = []
  · rw [if_pos ht] at h
    injection h with h'
    subst h'
    intro c hc
    exact absurd hc (List.not_mem_nil c)
  · rw [if_neg ht] at h
    rcases Option.map_eq_some'.mp h with ⟨raw, _, hchunks⟩
    subst hchunks
    exact mkChunks_offsets cfg.strategy (pyStrip text0) raw

/-- Witness for C9 on a concrete fixed-strategy run, instantiated at the
second emitted chunk. -/
theorem C9_offsets_witness :
    (⟨"cd".toList, 3, 6, 8, "fixed"⟩ : Chunk).end_char
        = (⟨"cd".toList, 3, 6, 8, "fixed"⟩ : Chunk).start_char
          + (⟨"cd".toList, 3, 6, 8, "fixed"⟩ : Chunk).text.length ∧
      ((∃ m, (⟨"cd".toList, 3, 6, 8, "fixed"⟩ : Chunk).text.isPrefixOf
          ((pyStrip ("ab    cd".toList)).drop m) = true) →
        0 ≤ (⟨"cd".toList, 3, 6, 8, "fixed"⟩ : Chunk).start_char ∧
        (⟨"cd".toList, 3, 6, 8, "fixed"⟩ : Chunk).start_char
            + ((⟨"cd".toList, 3, 6, 8, "fixed"⟩ : Chunk).text.length : ℤ)
          ≤ (pyStrip ("ab    cd".toList)).length ∧
        (⟨"cd".toList, 3, 6, 8, "fixed"⟩ : Chunk).text.isPrefixOf
          ((pyStrip ("ab    cd".toList)).drop
            (⟨"cd".toList, 3, 6, 8, "fixed"⟩ : Chunk).start_char.toNat) = true ∧
        ∀ m < (⟨"cd".toList, 3, 6, 8, "fixed"⟩ : Chunk).start_char.toNat,
          ¬ (⟨"cd".toList, 3, 6, 8, "fixed"⟩ : Chunk).text.isPrefixOf
            ((pyStrip ("ab    cd".toList)).drop m) = true) ∧
      ((¬ ∃ m, (⟨"cd".toList, 3, 6, 8, "fixed"⟩ : Chunk).text.isPrefixOf
          ((pyStrip ("ab    cd".toList)).drop m) = true) →
        (⟨"cd".toList, 3, 6, 8, "fixed"⟩ : Chunk).start_char = -1) :=
  C9_offsets (fun _ : ℚ => 0) ⟨"fixed", 2, 0, 5, 17/20⟩ 99 ("ab    cd".toList)
    [⟨"ab".toList, 0, 0, 2, "fixed"⟩, ⟨"cd".toList, 3, 6, 8, "fixed"⟩] (by decide)
    ⟨"cd".toList, 3, 6, 8, "fixed"⟩ (by decide)

/-- C9 counterexample: under the sentence strategy the chunk text is the
sentences rejoined with a space where the source had a newline; the text
does not occur in the input, `find` returns -1 and `start_char = -1 < 0`,
violating the claimed offset validity. -/
theorem C9_counterexample :
    chunkF (fun _ : ℚ => 0) ⟨"sentence", 512, 64, 5, 17/20⟩ 9 ("Hi.\nBye".toList) =
      some [⟨"Hi. Bye".toList, 0, -1, 6, "sentence"⟩] ∧
    (⟨"Hi. Bye".toList, 0, -1, 6, "sentence"⟩ : Chunk).start_char < 0 := by
  constructor
  · decide
  · decide

/-! ## C1: divergence of the recursive strategy on an oversized word -/

theorem recursiveF_word_diverges : ∀ fuel, recursiveF fuel ("abcdefgh".toList) 5 = none := by
  intro fuel
  induction fuel with
  | zero => rfl
  | succ n ih =>
    have step : recursiveF (n + 1) ("abcdefgh".toList) 5 =
        (match recursiveF n ("abcdefgh".toList) 5 with
         | none => none
         | some sub => (mergeGoF (recursiveF n) 5 [' '] (sub.getLast?.getD []) []).map
             (fun rest => ([] : List (List Char)) ++ sub.dropLast ++ rest)) := rfl
    rw [step, ih]

/-- C1 (code bug): for a single whitespace-free word longer than
`chunk_size`, `_recursive` falls through to the word splitter, which
yields the word whole, and `_merge_splits` recurses on that same word
with no base case: `Chunker.chunk` never completes (every fuel value is
exhausted) instead of passing the oversized unit through unsplit. -/
theorem C1_recursive_oversized_word_diverges :
    ∀ fuel, chunkF (fun _ : ℚ => 0) ⟨"recursive", 5, 0, 5, 17/20⟩ fuel
      ("abcdefgh".toList) = none := by
  intro fuel
  have step : chunkF (fun _ : ℚ => 0) ⟨"recursive", 5, 0, 5, 17/20⟩ fuel
      ("abcdefgh".toList) =
      (recursiveF fuel ("abcdefgh".toList) 5).map
        (mkChunks "recursive" ("abcdefgh".toList)) := rfl
  rw [step, recursiveF_word_diverges fuel]
  rfl

/-! ## C5: the sentence strategy's single-sentence overlap -/

theorem dropWhile_head_not {α : Type} (p : α → Bool) (l : List α) (c : α) (rest : List α)
    (h : l.dropWhile p = c :: rest) : p c = false := by
  induction l with
  | nil => exact absurd h (by simp)
  | cons a l ih =>
    by_cases ha : p a
    · rw [List.dropWhile_cons, if_pos ha] at h
      exact ih h
    · rw [List.dropWhile_cons, if_neg ha] at h
      injection h with h1 _
      rw [← h1]
      exact eq_false_of_ne_true ha

theorem pyStrip_eq_nil (l : List Char) : pyStrip l = [] ↔ ∀ c ∈ l, pySpace c = true := by
  unfold pyStrip
  rw [List.reverse_eq_nil_iff, List.dropWhile_eq_nil_iff]
  constructor
  · intro h c hc
    have hsplit := List.takeWhile_append_dropWhile pySpace l
    rcases List.mem_append.mp (by rw [hsplit]; exact hc) with h1 | h1
    · exact List.mem_takeWhile_imp h1
    · exact h c (List.mem_reverse.mpr h1)
  · intro h c hc
    exact h c ((List.dropWhile_sublist pySpace).subset (List.mem_reverse.mp hc))

theorem strip_has_nonspace (p : List Char) (h : pyStrip p ≠ []) :
    ∃ c ∈ pyStrip p, pySpace c = false := by
  unfold pyStrip at *
  cases hd : ((p.dropWhile pySpace).reverse.dropWhile pySpace) with
  | nil =>
    rw [hd] at h
    exact absurd rfl h
  | cons c rest =>
    refine ⟨c, ?_, dropWhile_head_not pySpace _ c rest hd⟩
    exact List.mem_reverse.mpr (List.mem_cons_self _ _)

theorem splitSentences_mem (t : List Char) :
    ∀ s ∈ splitSentences t, s ≠ [] ∧ ∃ c ∈ s, pySpace c = false := by
  intro s hs
  unfold splitSentences at hs
  rcases List.mem_flatten.mp hs with ⟨l, hl, hsl⟩
  rcases List.mem_map.mp hl with ⟨piece, _, hldef⟩
  rw [← hldef] at hsl
  rcases List.mem_filter.mp hsl with ⟨hmem, hne⟩
  have hne' : s ≠ [] := by simpa using hne
  rcases List.mem_map.mp hmem with ⟨p2, _, hp2⟩
  refine ⟨hne', ?_⟩
  rw [← hp2]
  exact strip_has_nonspace p2 (by rw [hp2]; exact hne')

theorem joinSep_mem_of_mem (sep : List Char) :
    ∀ (bufs : List (List Char)) (s : List Char), s ∈ bufs → ∀ c ∈ s, c ∈ joinSep sep bufs := by
  intro bufs
  induction bufs with
  | nil =>
    intro s hs
    exact absurd hs (List.not_mem_nil s)
  | cons x xs ih =>
    intro s hs c hc
    cases xs with
    | nil =>
      rcases List.mem_cons.mp hs with h | h
      · rw [← h]
        exact hc
      · exact absurd h (List.not_mem_nil s)
    | cons y ys =>
      show c ∈ x ++ (sep ++ joinSep sep (y :: ys))
      rcases List.mem_cons.mp hs with h | h
      · exact List.mem_append.mpr (Or.inl (h ▸ hc))
      · exact List.mem_append.mpr (Or.inr (List.mem_append.mpr (Or.inr (ih s h c hc))))

theorem joinSep_strip_ne (bufs : List (List Char))
    (h : ∃ s ∈ bufs, ∃ c ∈ s, pySpace c = false) :
    pyStrip (joinSep [' '] bufs) ≠ [] := by
  intro hnil
  obtain ⟨s, hs, c, hc, hcs⟩ := h
  have := (pyStrip_eq_nil _).mp hnil c (joinSep_mem_of_mem [' '] bufs s hs c hc)
  rw [this] at hcs
  exact Bool.noConfusion hcs

theorem sentGo_eq (maxS : ℕ) :
    ∀ (ss : List (List Char)) (buffer : List (List Char)),
      sentGo maxS buffer ss = (sentBufsGo maxS buffer ss).map (joinSep [' ']) := by
  intro ss
  induction ss with
  | nil =>
    intro buffer
    simp only [sentGo, sentBufsGo]
    by_cases h : buffer.isEmpty
    · simp [h]
    · simp [h]
  | cons s ss ih =>
    intro buffer
    simp only [sentGo, sentBufsGo]
    by_cases h : maxS ≤ (buffer ++ [s]).length
    · rw [if_pos h, if_pos h, List.map_cons, ih]
    · rw [if_neg h, if_neg h, ih]

theorem sentBufs_inv (maxS : ℕ) (P : List Char → Prop) :
    ∀ (ss : List (List Char)) (b : List (List Char)),
      (∀ s ∈ b, P s) → (∀ s ∈ ss, P s) →
      List.Chain' (fun x y => y.head? = x.getLast?) (sentBufsGo maxS b ss) ∧
      (b ≠ [] → ∀ f, (sentBufsGo maxS b ss).head? = some f → f.head? = b.head?) ∧
      (∀ x ∈ sentBufsGo maxS b ss, x ≠ [] ∧ ∀ s ∈ x, P s) := by
  intro ss
  induction ss with
  | nil =>
    intro b hPb _
    by_cases hb : b.isEmpty
    · have hbufs : sentBufsGo maxS b [] = [] := by
        simp only [sentBufsGo]
        rw [if_pos hb]
      rw [hbufs]
      refine ⟨List.chain'_nil, ?_, ?_⟩
      · intro _ f hf
        exact absurd hf (by simp)
      · intro x hx
        exact absurd hx (List.not_mem_nil x)
    · have hbufs : sentBufsGo maxS b [] = [b] := by
        simp only [sentBufsGo]
        rw [if_neg hb]
      rw [hbufs]
      refine ⟨?_, ?_, ?_⟩
      · simp
      · intro _ f hf
        have : b = f := by simpa using hf
        rw [← this]
      · intro x hx
        have : x = b := by simpa using hx
        rw [this]
        exact ⟨by simpa using hb, hPb⟩
  | cons s ss ih =>
    intro b hPb hPss
    have hP' : ∀ x ∈ b ++ [s], P x := by
      intro x hx
      rcases List.mem_append.mp hx with h | h
      · exact hPb x h
      · have : x = s := by simpa using h
        rw [this]
        exact hPss s (List.mem_cons_self _ _)
    have hPss' : ∀ x ∈ ss, P x := fun x hx => hPss x (List.mem_cons_of_mem _ hx)
    by_cases hlen : maxS ≤ (b ++ [s]).length
    · have heq : sentBufsGo maxS b (s :: ss) =
          (b ++ [s]) :: sentBufsGo maxS [(b ++ [s]).getLast?.getD []] ss := by
        simp only [sentBufsGo]
        rw [if_pos hlen]
      have hlastD : (b ++ [s]).getLast?.getD [] = s := by
        rw [List.getLast?_concat]
        rfl
      have hPlast : ∀ x ∈ [(b ++ [s]).getLast?.getD []], P x := by
        intro x hx
        have : x = (b ++ [s]).getLast?.getD [] := by simpa using hx
        rw [this, hlastD]
        exact hPss s (List.mem_cons_self _ _)
      obtain ⟨chR, hdR, allR⟩ := ih [(b ++ [s]).getLast?.getD []] hPlast hPss'
      rw [heq]
      refine ⟨?_, ?_, ?_⟩
      · rw [List.chain'_cons']
        refine ⟨?_, chR⟩
        intro y hy
        have hyh := hdR (by simp) y hy
        have h1 : [(b ++ [s]).getLast?.getD []].head? = some s := by
          rw [hlastD]
          rfl
        rw [hyh, h1, List.getLast?_concat]
      · intro hb f hf
        have : b ++ [s] = f := by simpa using hf
        rw [← this]
        exact List.head?_append_of_ne_nil b hb
      · intro x hx
        rcases List.mem_cons.mp hx with h | h
        · rw [h]
          exact ⟨by simp, hP'⟩
        · exact allR x h
    · have heq : sentBufsGo maxS b (s :: ss) = sentBufsGo maxS (b ++ [s]) ss := by
        simp only [sentBufsGo]
        rw [if_neg hlen]
      obtain ⟨chR, hdR, allR⟩ := ih (b ++ [s]) hP' hPss'
      rw [heq]
      refine ⟨chR, ?_, allR⟩
      intro hb f hf
      have := hdR (by simp) f hf
      rw [this]
      exact List.head?_append_of_ne_nil b hb

theorem chain_strengthen :
    ∀ (bufs : List (List (List Char))), (∀ x ∈ bufs, x ≠ []) →
      List.Chain' (fun x y => y.head? = x.getLast?) bufs →
      List.Chain' (fun x y => y.head? = x.getLast? ∧
        ∃ s, x.getLast? = some s ∧ s.isPrefixOf (joinSep [' '] y) = true) bufs := by
  intro bufs
  induction bufs with
  | nil => intro _ _; exact List.chain'_nil
  | cons x rest ih =>
    intro hne hch
    cases rest with
    | nil => simp
    | cons y rest' =>
      rw [List.chain'_cons] at hch
      rw [List.chain'_cons]
      have hy : y ≠ [] := hne y (List.mem_cons_of_mem _ (List.mem_cons_self _ _))
      obtain ⟨s0, yr, hydef⟩ : ∃ s0 yr, y = s0 :: yr := by
        cases y with
        | nil => exact absurd rfl hy
        | cons a l => exact ⟨a, l, rfl⟩
      refine ⟨⟨hch.1, ?_⟩, ih (fun z hz => hne z (List.mem_cons_of_mem _ hz)) hch.2⟩
      refine ⟨s0, ?_, ?_⟩
      · rw [← hch.1, hydef]
        rfl
      · rw [hydef]
        cases yr with
        | nil =>
          show s0.isPrefixOf s0 = true
          exact List.isPrefixOf_iff_prefix.mpr (List.prefix_refl s0)
        | cons z zs =>
          show s0.isPrefixOf (s0 ++ ([' '] ++ joinSep [' '] (z :: zs))) = true
          exact List.isPrefixOf_iff_prefix.mpr (List.prefix_append s0 _)

/-- C5: under the sentence strategy every chunk is the space-join of a
buffer of sentences; buffers are non-empty and each buffer after the
first starts with exactly the last sentence of the buffer before it, so
each chunk after the first begins (as a string prefix) with the previous
chunk's last sentence — including the final flushed chunk. -/
theorem C5_sentence_overlap {K : Type} [LinearOrderedField K] (sq : K → K)
    (cs ov maxS : ℕ) (th : K) (fuel : ℕ) (text0 : List Char) (chunks : List Chunk)
    (hms : 1 ≤ maxS)
    (h : chunkF sq ⟨"sentence", cs, ov, maxS, th⟩ fuel text0 = some chunks) :
    ∃ bufs : List (List (List Char)),
      chunks.map Chunk.text = bufs.map (joinSep [' ']) ∧
      (∀ x ∈ bufs, x ≠ []) ∧
      List.Chain' (fun x y => y.head? = x.getLast? ∧
        ∃ s, x.getLast? = some s ∧ s.isPrefixOf (joinSep [' '] y) = true) bufs := by
  unfold chunkF at h
  by_cases ht : pyStrip text0 = []
  · rw [if_pos ht] at h
    injection h with h'
    refine ⟨[], ?_, ?_, List.chain'_nil⟩
    · rw [← h']
      rfl
    · intro x hx
      exact absurd hx (List.not_mem_nil x)
  · rw [if_neg ht] at h
    have h2 : (some (sentGo maxS [] (splitSentences (pyStrip text0)))).map
        (mkChunks "sentence" (pyStrip text0)) = some chunks := h
    have h3 : mkChunks "sentence" (pyStrip text0)
        (sentGo maxS [] (splitSentences (pyStrip text0))) = chunks := by
      injection h2
    obtain ⟨chain, _, hall⟩ := sentBufs_inv maxS
      (fun s => s ≠ [] ∧ ∃ c ∈ s, pySpace c = false)
      (splitSentences (pyStrip text0)) [] (by intro s hs; exact absurd hs (List.not_mem_nil s))
      (splitSentences_mem (pyStrip text0))
    have hne : ∀ x ∈ sentBufsGo maxS [] (splitSentences (pyStrip text0)), x ≠ [] :=
      fun x hx => (hall x hx).1
    have hnw : ∀ p ∈ sentGo maxS [] (splitSentences (pyStrip text0)), pyStrip p ≠ [] := by
      rw [sentGo_eq]
      intro p hp
      rcases List.mem_map.mp hp with ⟨buf, hbuf, hpj⟩
      rw [← hpj]
      apply joinSep_strip_ne
      obtain ⟨hbne, hPall⟩ := hall buf hbuf
      obtain ⟨s0, rest, rfl⟩ : ∃ s0 rest, buf = s0 :: rest := by
        cases buf with
        | nil => exact absurd rfl hbne
        | cons a l => exact ⟨a, l, rfl⟩
      exact ⟨s0, List.mem_cons_self _ _, (hPall s0 (List.mem_cons_self _ _)).2⟩
    refine ⟨sentBufsGo maxS [] (splitSentences (pyStrip text0)), ?_, hne, ?_⟩
    · rw [← h3, mkChunks_texts _ _ _ hnw, sentGo_eq]
    · exact chain_strengthen _ hne chain

/-- Witness for C5 with `max_sentences = 2` on three sentences. -/
theorem C5_sentence_overlap_witness :
    ∃ bufs : List (List (List Char)),
      ([⟨"Aa. Bb.".toList, 0, 0, 7, "sentence"⟩,
        ⟨"Bb. Cc.".toList, 1, 4, 11, "sentence"⟩,
        (⟨"Cc.".toList, 2, 8, 11, "sentence"⟩ : Chunk)].map Chunk.text)
          = bufs.map (joinSep [' ']) ∧
      (∀ x ∈ bufs, x ≠ []) ∧
      List.Chain' (fun x y => y.head? = x.getLast? ∧
        ∃ s, x.getLast? = some s ∧ s.isPrefixOf (joinSep [' '] y) = true) bufs :=
  C5_sentence_overlap (fun _ : ℚ => 0) 512 64 2 (17/20) 9 ("Aa. Bb. Cc.".toList)
    [⟨"Aa. Bb.".toList, 0, 0, 7, "sentence"⟩,
     ⟨"Bb. Cc.".toList, 1, 4, 11, "sentence"⟩,
     ⟨"Cc.".toList, 2, 8, 11, "sentence"⟩] (by decide) (by decide)

/-! ## C7: cosine self-similarity. The scoring is asymmetric (query
vector TF-only, document vectors IDF-weighted), and the claim fails.
The token/tf computations are transferred from `ℚ` (where they evaluate
by `decide`) into `ℝ` along the cast ring homomorphism. -/

theorem dlookup_map_cast {K : Type} [LinearOrderedField K]
    (dq : List (String × ℚ)) (t : String) :
    dlookup (dq.map (fun p => (p.1, (p.2 : K)))) t
      = (dlookup dq t).map (fun v : ℚ => (v : K)) := by
  induction dq with
  | nil => rfl
  | cons q d ih =>
    obtain ⟨k, w⟩ := q
    by_cases hk : k = t
    · simp [dlookup, hk]
    · simp only [List.map_cons, dlookup, if_neg hk]
      exact ih

theorem dget_map_cast {K : Type} [LinearOrderedField K]
    (dq : List (String × ℚ)) (t : String) :
    dget (dq.map (fun p => (p.1, (p.2 : K)))) t 0 = ((dget dq t 0 : ℚ) : K) := by
  unfold dget
  rw [dlookup_map_cast]
  cases dlookup dq t with
  | none => simp
  | some v => simp

theorem dset_map_cast {K : Type} [LinearOrderedField K]
    (dq : List (String × ℚ)) (t : String) (w : ℚ) :
    dset (dq.map (fun p => (p.1, (p.2 : K)))) t (w : K)
      = (dset dq t w).map (fun p => (p.1, (p.2 : K))) := by
  induction dq with
  | nil => rfl
  | cons q d ih =>
    obtain ⟨k, v⟩ := q
    by_cases hk : k = t
    · simp [dset, hk]
    · simp only [List.map_cons, dset, if_neg hk, List.map_cons]
      rw [ih]

theorem counts_fold_cast {K : Type} [LinearOrderedField K] (tokens : List String) :
    ∀ dq : List (String × ℚ),
      tokens.foldl (fun d t => if t ∈ retrStopwords then d else dset d t (dget d t 0 + 1))
        (dq.map (fun p => (p.1, (p.2 : K))))
      = (tokens.foldl (fun d t => if t ∈ retrStopwords then d else dset d t (dget d t 0 + 1))
          dq).map (fun p => (p.1, (p.2 : K))) := by
  induction tokens with
  | nil => intro dq; rfl
  | cons t ts ih =>
    intro dq
    by_cases hst : t ∈ retrStopwords
    · simp only [List.foldl_cons, if_pos hst]
      exact ih dq
    · simp only [List.foldl_cons, if_neg hst]
      rw [dget_map_cast]
      have hcast : ((dget dq t 0 : ℚ) : K) + 1 = ((dget dq t 0 + 1 : ℚ) : K) := by
        push_cast
        ring
      rw [hcast, dset_map_cast]
      exact ih (dset dq t (dget dq t 0 + 1))

theorem map_snd_cast_sum {K : Type} [LinearOrderedField K] (l : List (String × ℚ)) :
    ((l.map (fun p => (p.1, (p.2 : K)))).map Prod.snd).sum = ((l.map Prod.snd).sum : ℚ) := by
  induction l with
  | nil => simp
  | cons q d ih =>
    simp only [List.map_cons, List.sum_cons, ih]
    push_cast
    ring

theorem cosTf_cast {K : Type} [LinearOrderedField K] (text : String) :
    cosTf (K := K) text = (cosTf (K := ℚ) text).map (fun p => (p.1, (p.2 : K))) := by
  unfold cosTf
  have hcounts := counts_fold_cast (K := K) (findWords 2 text) []
  simp only [List.map_nil] at hcounts
  simp only [hcounts, map_snd_cast_sum]
  rw [List.map_map, List.map_map]
  apply List.map_congr_left
  intro p hp
  simp only [Function.comp]
  refine Prod.ext rfl ?_
  show (p.2 : K) / _ = ((_ : ℚ) : K)
  rw [Rat.cast_div]
  congr 1
  rw [apply_ite (fun q : ℚ => (q : K))]
  split_ifs with h1 h2 h3
  · norm_num
  · exact absurd (by exact_mod_cast h1) h2
  · exact absurd (by exact_mod_cast h3) h1
  · rfl

/-! Supporting development for C7: transfer of the `ℚ`-computed tf/df
dictionaries into `ℝ`, positivity and key-uniqueness of the tf maps,
coverage and uniqueness of the document-frequency dict, scale invariance
of `_normalize`, and a Cauchy-Schwarz bound on the normalized dot
product. -/

def C7docs : List Doc := [("d1", "cat cat dog"), ("d2", "cat"), ("d3", "cat"), ("d4", "fish")]

theorem cosineDf_map_cast {K : Type} [LinearOrderedField K] (tfLists : List (List (String × ℚ))) :
    cosineDf (tfLists.map (fun tf => tf.map (fun p => (p.1, (p.2 : K))))) = cosineDf tfLists := by
  unfold cosineDf
  rw [List.foldl_map]
  congr 1
  funext df tf
  rw [List.foldl_map]

theorem mem_dset_val {β : Type} (d : List (String × β)) (t : String) (v : β) (p : String × β)
    (h : p ∈ dset d t v) : p.2 = v ∨ p ∈ d := by
  induction d with
  | nil =>
    simp only [dset, List.mem_singleton] at h
    left
    rw [h]
  | cons q d ih =>
    obtain ⟨k, w⟩ := q
    by_cases hk : k = t
    · simp only [dset, if_pos hk, List.mem_cons] at h
      rcases h with h | h
      · left; rw [h]
      · right; exact List.mem_cons_of_mem _ h
    · simp only [dset, if_neg hk, List.mem_cons] at h
      rcases h with h | h
      · right
        rw [h]
        exact List.mem_cons_self _ _
      · rcases ih h with h' | h'
        · left; exact h'
        · right; exact List.mem_cons_of_mem _ h'

theorem counts_fold_ge_one {K : Type} [LinearOrderedField K] (tokens : List String) :
    ∀ d : List (String × K), (∀ p ∈ d, 1 ≤ p.2) →
      ∀ p ∈ tokens.foldl
        (fun d t => if t ∈ retrStopwords then d else dset d t (dget d t 0 + 1)) d,
        1 ≤ p.2 := by
  induction tokens with
  | nil => intro d hd; exact hd
  | cons t ts ih =>
    intro d hd
    by_cases hst : t ∈ retrStopwords
    · simp only [List.foldl_cons, if_pos hst]
      exact ih d hd
    · simp only [List.foldl_cons, if_neg hst]
      apply ih
      intro p hp
      rcases mem_dset_val d t (dget d t 0 + 1) p hp with h | h
      · rw [h]
        have hge : (0 : K) ≤ dget d t 0 := by
          unfold dget
          cases hl : dlookup d t with
          | none => simp
          | some v =>
            simp only [Option.getD_some]
            exact le_trans zero_le_one (hd _ (dlookup_mem d t v hl))
        linarith
      · exact hd p h

theorem cosTf_pos {K : Type} [LinearOrderedField K] (text : String) :
    ∀ p ∈ cosTf (K := K) text, 0 < p.2 := by
  unfold cosTf
  intro p hp
  simp only [List.mem_map] at hp
  obtain ⟨q, hq, hpq⟩ := hp
  have hq1 : 1 ≤ q.2 := counts_fold_ge_one (findWords 2 text) [] (by simp) q hq
  have hcne : (List.foldl
      (fun d t => if t ∈ retrStopwords then d else dset d t (dget d t 0 + 1))
      ([] : List (String × K)) (findWords 2 text)) ≠ [] := by
    intro hnil
    exact List.not_mem_nil q (hnil ▸ hq)
  have htot : (0 : K) < ((List.foldl
      (fun d t => if t ∈ retrStopwords then d else dset d t (dget d t 0 + 1))
      ([] : List (String × K)) (findWords 2 text)).map Prod.snd).sum := by
    apply List.sum_pos
    · intro x hx
      simp only [List.mem_map] at hx
      obtain ⟨r, hr, hrx⟩ := hx
      have := counts_fold_ge_one (findWords 2 text) [] (by simp) r hr
      rw [← hrx]
      linarith
    · intro hnil
      exact hcne (by simpa using hnil)
  rw [← hpq]
  simp only
  rw [if_neg (ne_of_gt htot)]
  positivity

theorem cosTf_keys_nodup {K : Type} [LinearOrderedField K] (text : String) :
    ((cosTf (K := K) text).map Prod.fst).Nodup := by
  unfold cosTf
  simp only [List.map_map]
  have hfold : ∀ (tokens : List String) (d : List (String × K)),
      (d.map Prod.fst).Nodup →
      ((tokens.foldl
        (fun d t => if t ∈ retrStopwords then d else dset d t (dget d t 0 + 1)) d).map
          Prod.fst).Nodup := by
    intro tokens
    induction tokens with
    | nil => intro d hd; exact hd
    | cons t ts ih =>
      intro d hd
      by_cases hst : t ∈ retrStopwords
      · simp only [List.foldl_cons, if_pos hst]
        exact ih d hd
      · simp only [List.foldl_cons, if_neg hst]
        exact ih _ (dset_keys_nodup d t _ hd)
  exact hfold (findWords 2 text) [] (by simp)

theorem dset_mem_key {β : Type} (d : List (String × β)) (t : String) (v : β) :
    ∃ m, (t, m) ∈ dset d t v := by
  induction d with
  | nil => exact ⟨v, by simp [dset]⟩
  | cons q d ih =>
    obtain ⟨k, w⟩ := q
    by_cases hk : k = t
    · exact ⟨v, by simp [dset, hk]⟩
    · obtain ⟨m, hm⟩ := ih
      refine ⟨m, ?_⟩
      simp only [dset, if_neg hk]
      exact List.mem_cons_of_mem _ hm

theorem dset_pres_key {β : Type} (d : List (String × β)) (t k : String) (v m : β)
    (h : (k, m) ∈ d) : ∃ m', (k, m') ∈ dset d t v := by
  induction d with
  | nil => simp at h
  | cons q d ih =>
    obtain ⟨k', w⟩ := q
    by_cases hk : k' = t
    · simp only [dset, if_pos hk]
      rcases List.mem_cons.mp h with h | h
      · cases h
        exact ⟨v, List.mem_cons_self _ _⟩
      · exact ⟨m, List.mem_cons_of_mem _ h⟩
    · simp only [dset, if_neg hk]
      rcases List.mem_cons.mp h with h | h
      · refine ⟨m, ?_⟩
        rw [h]
        exact List.mem_cons_self _ _
      · obtain ⟨m', hm'⟩ := ih h
        exact ⟨m', List.mem_cons_of_mem _ hm'⟩

theorem dffold_pres {K : Type} (tf : List (String × K)) :
    ∀ (df : List (String × ℕ)) (k : String) (m : ℕ), (k, m) ∈ df →
      ∃ m', (k, m') ∈ tf.foldl (fun df p => dset df p.1 (dget df p.1 0 + 1)) df := by
  induction tf with
  | nil => intro df k m h; exact ⟨m, h⟩
  | cons p tf ih =>
    intro df k m h
    simp only [List.foldl_cons]
    obtain ⟨m1, hm1⟩ := dset_pres_key df p.1 k _ m h
    exact ih _ k m1 hm1

theorem dffold_adds {K : Type} (tf : List (String × K)) :
    ∀ (df : List (String × ℕ)) (p : String × K), p ∈ tf →
      ∃ m', (p.1, m') ∈ tf.foldl (fun df p => dset df p.1 (dget df p.1 0 + 1)) df := by
  induction tf with
  | nil => intro df p h; simp at h
  | cons q tf ih =>
    intro df p hp
    simp only [List.foldl_cons]
    rcases List.mem_cons.mp hp with h | h
    · obtain ⟨m, hm⟩ := dset_mem_key df q.1 (dget df q.1 0 + 1)
      obtain ⟨m', hm'⟩ := dffold_pres tf _ q.1 m hm
      rw [h]
      exact ⟨m', hm'⟩
    · exact ih _ p h

theorem cosineDf_fold_pres {K : Type} (tfLists : List (List (String × K))) :
    ∀ (df : List (String × ℕ)) (k : String) (m : ℕ), (k, m) ∈ df →
      ∃ m', (k, m') ∈ tfLists.foldl
        (fun df tf => tf.foldl (fun df p => dset df p.1 (dget df p.1 0 + 1)) df) df := by
  induction tfLists with
  | nil => intro df k m h; exact ⟨m, h⟩
  | cons u us ih =>
    intro df k m h
    simp only [List.foldl_cons]
    obtain ⟨m1, hm1⟩ := dffold_pres u df k m h
    exact ih _ k m1 hm1

theorem cosineDf_covers {K : Type} (tfLists : List (List (String × K)))
    (tf : List (String × K)) (htf : tf ∈ tfLists) (p : String × K) (hp : p ∈ tf) :
    ∃ m, (p.1, m) ∈ cosineDf tfLists := by
  unfold cosineDf
  have main : ∀ (ls : List (List (String × K))) (df : List (String × ℕ)), tf ∈ ls →
      ∃ m, (p.1, m) ∈ ls.foldl
        (fun df tf => tf.foldl (fun df p => dset df p.1 (dget df p.1 0 + 1)) df) df := by
    intro ls
    induction ls with
    | nil => intro df h; simp at h
    | cons u us ih =>
      intro df h
      simp only [List.foldl_cons]
      rcases List.mem_cons.mp h with h | h
      · obtain ⟨m, hm⟩ := dffold_adds u df p (h ▸ hp)
        exact cosineDf_fold_pres us _ p.1 m hm
      · exact ih _ h
  exact main tfLists [] htf

theorem dffold_nodup {K : Type} (tf : List (String × K)) :
    ∀ df : List (String × ℕ), (df.map Prod.fst).Nodup →
      (((tf.foldl (fun df p => dset df p.1 (dget df p.1 0 + 1)) df)).map Prod.fst).Nodup := by
  induction tf with
  | nil => intro df h; exact h
  | cons p tf ih =>
    intro df h
    simp only [List.foldl_cons]
    exact ih _ (dset_keys_nodup df p.1 _ h)

theorem cosineDf_keys_nodup {K : Type} (tfLists : List (List (String × K))) :
    ((cosineDf tfLists).map Prod.fst).Nodup := by
  unfold cosineDf
  have main : ∀ (ls : List (List (String × K))) (df : List (String × ℕ)),
      (df.map Prod.fst).Nodup →
      ((ls.foldl (fun df tf => tf.foldl
          (fun df p => dset df p.1 (dget df p.1 0 + 1)) df) df).map Prod.fst).Nodup := by
    intro ls
    induction ls with
    | nil => intro df h; exact h
    | cons u us ih =>
      intro df h
      simp only [List.foldl_cons]
      exact ih _ (dffold_nodup u df h)
  exact main tfLists [] (by simp)

theorem sum_map_sq_smul (v : List (String × ℝ)) (l : ℝ) :
    ((v.map (fun p => (p.1, p.2 * l))).map (fun p => p.2 * p.2)).sum
      = ((v.map (fun p => p.2 * p.2)).sum) * (l * l) := by
  induction v with
  | nil => simp
  | cons q v ih =>
    simp only [List.map_cons, List.sum_cons, ih]
    ring

theorem sum_map_sq_pos (v : List (String × ℝ)) (hv : ∀ p ∈ v, 0 < p.2) (hne : v ≠ []) :
    0 < ((v.map (fun p => p.2 * p.2)).sum) := by
  apply List.sum_pos
  · intro x hx
    obtain ⟨r, hr, hrx⟩ := List.mem_map.mp hx
    rw [← hrx]
    exact mul_pos (hv r hr) (hv r hr)
  · intro hnil
    exact hne (by simpa using hnil)

theorem normalizeD_smul (v : List (String × ℝ)) (l : ℝ) (hl : 0 < l)
    (hv : ∀ p ∈ v, 0 < p.2) :
    normalizeD Real.sqrt (v.map (fun p => (p.1, p.2 * l))) = normalizeD Real.sqrt v := by
  rcases eq_or_ne v [] with hv0 | hvne
  · rw [hv0]
    rfl
  have hS : 0 < ((v.map (fun p => p.2 * p.2)).sum) := sum_map_sq_pos v hv hvne
  have hsqS : 0 < Real.sqrt ((v.map (fun p => p.2 * p.2)).sum) := Real.sqrt_pos.mpr hS
  simp only [normalizeD]
  rw [sum_map_sq_smul, Real.sqrt_mul hS.le, Real.sqrt_mul_self hl.le]
  rw [if_neg (by positivity), if_neg (ne_of_gt hsqS)]
  rw [List.map_map]
  apply List.map_congr_left
  intro p _
  refine Prod.ext rfl ?_
  show p.2 * l / (Real.sqrt ((v.map (fun p => p.2 * p.2)).sum) * l) = p.2 / _
  rw [mul_div_mul_right _ _ hl.ne']

theorem dget_cons_self (b : List (String × ℝ)) (k : String) (w : ℝ) (dflt : ℝ) :
    dget ((k, w) :: b) k dflt = w := by
  simp [dget, dlookup]

theorem dget_cons_ne (b : List (String × ℝ)) (k k' : String) (w : ℝ) (dflt : ℝ)
    (h : k ≠ k') : dget ((k, w) :: b) k' dflt = dget b k' dflt := by
  simp [dget, dlookup, h]

theorem dotD_finset (a b : List (String × ℝ)) (hb : (b.map Prod.fst).Nodup) :
    dotD a b = ∑ k ∈ (b.map Prod.fst).toFinset, dget a k 0 * dget b k 0 := by
  induction b with
  | nil => simp [dotD]
  | cons q b ih =>
    obtain ⟨k0, w⟩ := q
    simp only [List.map_cons, List.nodup_cons] at hb
    obtain ⟨hk0, hnd⟩ := hb
    have hnotin : k0 ∉ (b.map Prod.fst).toFinset := by
      rw [List.mem_toFinset]
      exact hk0
    simp only [dotD, List.map_cons, List.sum_cons, List.toFinset_cons]
    rw [Finset.sum_insert hnotin]
    have h1 : dget ((k0, w) :: b) k0 0 = w := dget_cons_self b k0 w 0
    rw [h1]
    have h2 : ∑ k ∈ (b.map Prod.fst).toFinset, dget a k 0 * dget ((k0, w) :: b) k 0
        = ∑ k ∈ (b.map Prod.fst).toFinset, dget a k 0 * dget b k 0 := by
      apply Finset.sum_congr rfl
      intro k hk
      have hne : k0 ≠ k := by
        intro hkk
        exact hk0 (by rw [hkk]; exact List.mem_toFinset.mp hk)
      rw [dget_cons_ne b k0 k w 0 hne]
    rw [h2, ← ih hnd]
    rfl

theorem normsq_finset (u : List (String × ℝ)) (hu : (u.map Prod.fst).Nodup) :
    ((u.map (fun p => p.2 * p.2)).sum)
      = ∑ k ∈ (u.map Prod.fst).toFinset, dget u k 0 * dget u k 0 := by
  induction u with
  | nil => simp
  | cons q u ih =>
    obtain ⟨k0, w⟩ := q
    simp only [List.map_cons, List.nodup_cons] at hu
    obtain ⟨hk0, hnd⟩ := hu
    have hnotin : k0 ∉ (u.map Prod.fst).toFinset := by
      rw [List.mem_toFinset]
      exact hk0
    simp only [List.map_cons, List.sum_cons, List.toFinset_cons]
    rw [Finset.sum_insert hnotin, dget_cons_self]
    congr 1
    rw [ih hnd]
    apply Finset.sum_congr rfl
    intro k hk
    have hne : k0 ≠ k := by
      intro hkk
      exact hk0 (by rw [hkk]; exact List.mem_toFinset.mp hk)
    rw [dget_cons_ne u k0 k w 0 hne]

theorem dget_ne_zero_mem (a : List (String × ℝ)) (k : String) (h : dget a k 0 ≠ 0) :
    k ∈ (a.map Prod.fst).toFinset := by
  unfold dget at h
  cases hl : dlookup a k with
  | none =>
    rw [hl] at h
    simp at h
  | some v =>
    have hm := dlookup_mem a k v hl
    rw [List.mem_toFinset]
    exact List.mem_map.mpr ⟨(k, v), hm, rfl⟩

theorem normalizeD_keys (sq : ℝ → ℝ) (v : List (String × ℝ)) :
    (normalizeD sq v).map Prod.fst = v.map Prod.fst := by
  simp only [normalizeD, List.map_map]
  rfl

theorem sum_map_sq_div (v : List (String × ℝ)) (n : ℝ) :
    ((v.map (fun p => (p.1, p.2 / n))).map (fun p => p.2 * p.2)).sum
      = ((v.map (fun p => p.2 * p.2)).sum) / (n * n) := by
  induction v with
  | nil => simp
  | cons q v ih =>
    simp only [List.map_cons, List.sum_cons, ih]
    ring

theorem normsq_normalizeD (v : List (String × ℝ)) (hv : ∀ p ∈ v, 0 < p.2) (hne : v ≠ []) :
    (((normalizeD Real.sqrt v).map (fun p => p.2 * p.2)).sum) = 1 := by
  have hS : 0 < ((v.map (fun p => p.2 * p.2)).sum) := sum_map_sq_pos v hv hne
  have hsqS : 0 < Real.sqrt ((v.map (fun p => p.2 * p.2)).sum) := Real.sqrt_pos.mpr hS
  simp only [normalizeD]
  rw [if_neg (ne_of_gt hsqS), sum_map_sq_div,
    Real.mul_self_sqrt hS.le, div_self (ne_of_gt hS)]

theorem dotD_nil_left (b : List (String × ℝ)) : dotD ([] : List (String × ℝ)) b = 0 := by
  induction b with
  | nil => rfl
  | cons q b ih =>
    simp only [dotD, List.map_cons, List.sum_cons] at *
    rw [ih]
    simp [dget, dlookup]

theorem dotD_of_vals_zero (a b : List (String × ℝ)) (hb : ∀ p ∈ b, p.2 = 0) :
    dotD a b = 0 := by
  induction b with
  | nil => rfl
  | cons q b ih =>
    simp only [dotD, List.map_cons, List.sum_cons] at *
    rw [ih (fun p hp => hb p (List.mem_cons_of_mem _ hp)), hb q (List.mem_cons_self _ _)]
    ring

theorem vals_normalizeD_zero (sq : ℝ → ℝ) (v : List (String × ℝ))
    (hv : ∀ p ∈ v, p.2 = 0) : ∀ p ∈ normalizeD sq v, p.2 = 0 := by
  intro p hp
  simp only [normalizeD, List.mem_map] at hp
  obtain ⟨q, hq, hqp⟩ := hp
  rw [← hqp]
  simp only
  rw [hv q hq, zero_div]

theorem dot_norm_self (v : List (String × ℝ)) (hv : ∀ p ∈ v, 0 < p.2) (hne : v ≠ [])
    (hnd : (v.map Prod.fst).Nodup) :
    dotD (normalizeD Real.sqrt v) (normalizeD Real.sqrt v) = 1 := by
  have hknd : ((normalizeD Real.sqrt v).map Prod.fst).Nodup := by
    rw [normalizeD_keys]
    exact hnd
  rw [dotD_finset _ _ hknd, ← normsq_finset _ hknd]
  exact normsq_normalizeD v hv hne

theorem dot_norm_le_one (a b : List (String × ℝ))
    (hva : ∀ p ∈ a, 0 < p.2) (hvb : ∀ p ∈ b, 0 < p.2)
    (hnda : (a.map Prod.fst).Nodup) (hndb : (b.map Prod.fst).Nodup) :
    dotD (normalizeD Real.sqrt a) (normalizeD Real.sqrt b) ≤ 1 := by
  rcases eq_or_ne b [] with hb0 | hbne
  · rw [hb0]
    show dotD _ (normalizeD Real.sqrt []) ≤ 1
    show dotD _ [] ≤ 1
    show (0 : ℝ) ≤ 1
    norm_num
  rcases eq_or_ne a [] with ha0 | hane
  · rw [ha0]
    show dotD (normalizeD Real.sqrt []) _ ≤ 1
    show dotD [] _ ≤ 1
    rw [dotD_nil_left]
    norm_num
  have hknda : ((normalizeD Real.sqrt a).map Prod.fst).Nodup := by
    rw [normalizeD_keys]; exact hnda
  have hkndb : ((normalizeD Real.sqrt b).map Prod.fst).Nodup := by
    rw [normalizeD_keys]; exact hndb
  have hA : ∑ k ∈ ((normalizeD Real.sqrt a).map Prod.fst).toFinset,
      dget (normalizeD Real.sqrt a) k 0 * dget (normalizeD Real.sqrt a) k 0 = 1 := by
    rw [← normsq_finset _ hknda]
    exact normsq_normalizeD a hva hane
  have hB : ∑ k ∈ ((normalizeD Real.sqrt b).map Prod.fst).toFinset,
      dget (normalizeD Real.sqrt b) k 0 * dget (normalizeD Real.sqrt b) k 0 = 1 := by
    rw [← normsq_finset _ hkndb]
    exact normsq_normalizeD b hvb hbne
  set na := normalizeD Real.sqrt a with hna
  set nb := normalizeD Real.sqrt b with hnb
  set Ka := (na.map Prod.fst).toFinset with hKa
  set Kb := (nb.map Prod.fst).toFinset with hKb
  rw [dotD_finset na nb hkndb]
  have hext : ∑ k ∈ Kb, dget na k 0 * dget na k 0 ≤ 1 := by
    have h1 : ∑ k ∈ Kb ∩ Ka, dget na k 0 * dget na k 0
        = ∑ k ∈ Kb, dget na k 0 * dget na k 0 := by
      apply Finset.sum_subset (Finset.inter_subset_left)
      intro x _ hx2
      have hxa : x ∉ Ka := by
        intro hxa
        exact hx2 (Finset.mem_inter.mpr ⟨‹x ∈ Kb›, hxa⟩)
      have hz : dget na x 0 = 0 := by
        by_contra hnz
        exact hxa (dget_ne_zero_mem na x hnz)
      rw [hz]
      ring
    rw [← h1]
    calc ∑ k ∈ Kb ∩ Ka, dget na k 0 * dget na k 0
        ≤ ∑ k ∈ Ka, dget na k 0 * dget na k 0 := by
          apply Finset.sum_le_sum_of_subset_of_nonneg (Finset.inter_subset_right)
          intro i _ _
          exact mul_self_nonneg _
      _ = 1 := hA
  have hcs := Finset.sum_mul_sq_le_sq_mul_sq Kb (fun k => dget na k 0) (fun k => dget nb k 0)
  have hsq1 : ∑ k ∈ Kb, (dget na k 0) ^ 2 = ∑ k ∈ Kb, dget na k 0 * dget na k 0 := by
    apply Finset.sum_congr rfl
    intro k _
    ring
  have hsq2 : ∑ k ∈ Kb, (dget nb k 0) ^ 2 = ∑ k ∈ Kb, dget nb k 0 * dget nb k 0 := by
    apply Finset.sum_congr rfl
    intro k _
    ring
  rw [hsq1, hsq2, hB, mul_one] at hcs
  have hd2 : (∑ k ∈ Kb, dget na k 0 * dget nb k 0) ^ 2 ≤ 1 := le_trans hcs hext
  nlinarith [hd2, sq_nonneg ((∑ k ∈ Kb, dget na k 0 * dget nb k 0) - 1)]

set_option maxHeartbeats 1000000 in
/-- C7 (counterexample): on the corpus `C7docs`, querying with the exact
text of document 0 (`"cat cat dog"`) gives document 1 (`"cat"`) a strictly
higher cosine similarity than document 0 itself: the IDF factor
down-weights the terms of the longer document while the query vector is
TF-only, so the self-queried document is not even tied for the maximum. -/
theorem C7_counterexample :
    ((cosinePairs Real.sqrt (cosineIndex Real.log Real.sqrt C7docs) "cat cat dog").getD 0 (0, 0)).1
      < ((cosinePairs Real.sqrt (cosineIndex Real.log Real.sqrt C7docs) "cat cat dog").getD 1 (0, 0)).1 := by
  have hq : cosTf (K := ℝ) "cat cat dog" = [("cat", 2/3), ("dog", 1/3)] := by
    rw [cosTf_cast, show cosTf (K := ℚ) "cat cat dog" = [("cat", 2/3), ("dog", 1/3)] from by decide]
    norm_num
  have h2 : cosTf (K := ℝ) "cat" = [("cat", 1)] := by
    rw [cosTf_cast, show cosTf (K := ℚ) "cat" = [("cat", 1)] from by decide]
    norm_num
  have h4 : cosTf (K := ℝ) "fish" = [("fish", 1)] := by
    rw [cosTf_cast, show cosTf (K := ℚ) "fish" = [("fish", 1)] from by decide]
    norm_num
  have hdf2 : cosineDf ([[("cat", (2/3:ℝ)), ("dog", 1/3)], [("cat", 1)], [("cat", 1)], [("fish", 1)]])
      = [("cat", 3), ("dog", 1), ("fish", 1)] := by
    rw [show ([[("cat", (2/3:ℝ)), ("dog", 1/3)], [("cat", 1)], [("cat", 1)], [("fish", 1)]])
        = (([[("cat", (2/3:ℚ)), ("dog", 1/3)], [("cat", 1)], [("cat", 1)], [("fish", 1)]] :
            List (List (String × ℚ))).map (fun tf => tf.map (fun p => (p.1, (p.2 : ℝ)))))
      from by norm_num, cosineDf_map_cast]
    decide
  have hvecs : (cosineIndex Real.log Real.sqrt C7docs).vectors
      = [normalizeD Real.sqrt [("cat", 2/3 * Real.log (5/4)), ("dog", 1/3 * Real.log (5/2))],
         normalizeD Real.sqrt [("cat", 1 * Real.log (5/4))],
         normalizeD Real.sqrt [("cat", 1 * Real.log (5/4))],
         normalizeD Real.sqrt [("fish", 1 * Real.log (5/2))]] := by
    unfold cosineIndex
    simp only [C7docs, List.map_cons, List.map_nil, hq, h2, h4, hdf2, List.length_cons,
      List.length_nil]
    have hx1 : (("cat" : String) = "dog") = False := eq_false (by decide)
    have hx2 : (("cat" : String) = "fish") = False := eq_false (by decide)
    have hx3 : (("dog" : String) = "fish") = False := eq_false (by decide)
    norm_num [dget, dlookup, hx1, hx2, hx3]
  unfold cosinePairs
  rw [hvecs, hq]
  simp only [List.enum, List.enumFrom, List.map_cons, List.map_nil, List.getD_cons_zero,
    List.getD_cons_succ]
  have ha : 0 < Real.log (5/4) := Real.log_pos (by norm_num)
  have hb : 0 < Real.log (5/2) := Real.log_pos (by norm_num)
  have hx1 : (("cat" : String) = "dog") = False := eq_false (by decide)
  have hx1' : (("dog" : String) = "cat") = False := eq_false (by decide)
  have hg1 : (Real.sqrt (2/3*(2/3) + (1/3*(1/3) + 0)) = 0) = False :=
    eq_false (Real.sqrt_ne_zero'.mpr (by norm_num))
  have hg2 : (Real.sqrt (2/3*Real.log (5/4)*(2/3*Real.log (5/4))
      + (1/3*Real.log (5/2)*(1/3*Real.log (5/2)) + 0)) = 0) = False :=
    eq_false (Real.sqrt_ne_zero'.mpr (by nlinarith))
  have hg3 : (Real.sqrt (1*Real.log (5/4)*(1*Real.log (5/4)) + 0) = 0) = False :=
    eq_false (Real.sqrt_ne_zero'.mpr (by nlinarith))
  simp only [normalizeD, dotD, dget, dlookup, List.map_cons, List.map_nil, List.sum_cons,
    List.sum_nil, hx1, hx1', if_false, ite_true, hg1, hg2, hg3, Option.getD_some]
  have h8 : 8 * Real.log (5/4) < 3 * Real.log (5/2) := by
    have e1 : (8:ℝ) * Real.log (5/4) = Real.log ((5/4 : ℝ)^(8:ℕ)) := by
      rw [Real.log_pow]
      push_cast
      ring
    have e2 : (3:ℝ) * Real.log (5/2) = Real.log ((5/2 : ℝ)^(3:ℕ)) := by
      rw [Real.log_pow]
      push_cast
      ring
    rw [e1, e2]
    exact Real.log_lt_log (by positivity) (by norm_num)
  have hNa : Real.sqrt (1*Real.log (5/4)*(1*Real.log (5/4)) + 0)
      = Real.log (5/4) := by
    rw [show (1*Real.log (5/4)*(1*Real.log (5/4)) + 0)
        = Real.log (5/4) * Real.log (5/4) from by ring]
    exact Real.sqrt_mul_self ha.le
  rw [hNa]
  set La := Real.log (5/4) with hLa
  set Lb := Real.log (5/2) with hLb
  set Nq := Real.sqrt (2/3*(2/3) + (1/3*(1/3) + 0)) with hNqdef
  set N1 := Real.sqrt (2/3*La*(2/3*La) + (1/3*Lb*(1/3*Lb) + 0)) with hN1def
  have hNq_pos : 0 < Nq := Real.sqrt_pos.mpr (by norm_num)
  have hN1_pos : 0 < N1 := Real.sqrt_pos.mpr (by nlinarith)
  have hN1_sq : N1^2 = 4/9*La^2 + 1/9*Lb^2 := by
    rw [hN1def, Real.sq_sqrt (by nlinarith)]
    ring
  have key : 4*La + Lb < 6*N1 := by
    have hsq : (4*La + Lb)^2 < (6*N1)^2 := by
      have h1 : 8*La*Lb < 3*Lb*Lb := by nlinarith [mul_lt_mul_of_pos_right h8 hb]
      rw [mul_pow, hN1_sq]
      nlinarith [h1]
    nlinarith [hsq, hN1_pos, ha, hb]
  have hL : 2/3/Nq * (2/3*La/N1) + (1/3/Nq * (1/3*Lb/N1) + 0)
      = (2/3*(2/3*La) + 1/3*(1/3*Lb)) / (Nq*N1) := by
    rw [div_mul_div_comm, div_mul_div_comm, add_zero, div_add_div_same]
  rw [hL, one_mul, div_self ha.ne', mul_one, add_zero]
  rw [show (2:ℝ)/3/Nq = (2/3)/Nq from rfl, div_lt_div_iff (by positivity) hNq_pos]
  have hstep : 2/3*(2/3*La)+1/3*(1/3*Lb) < 2/3*N1 := by nlinarith [key]
  nlinarith [mul_lt_mul_of_pos_right hstep hNq_pos]

/-- C7 (amended): if every term of the indexed corpus has one and the
same document frequency `c` (so the IDF weight is a single common factor),
then querying `CosineRetriever.retrieve` with the exact text of indexed
document `j` gives that document a similarity score that is maximal or
tied for maximal among all the `(sim, index)` pairs the retriever scores. -/
theorem C7_cosine_self_query (docs : List Doc) (j : ℕ) (hj : j < docs.length) (c : ℕ)
    (hcn : c ≤ docs.length)
    (hdf : ∀ p ∈ cosineDf (docs.map (fun d => cosTf (K := ℝ) d.2)), p.2 = c) :
    ∀ p ∈ cosinePairs Real.sqrt (cosineIndex Real.log Real.sqrt docs)
        ((docs.getD j default).2),
      p.1 ≤ ((cosinePairs Real.sqrt (cosineIndex Real.log Real.sqrt docs)
        ((docs.getD j default).2)).getD j (0, 0)).1 := by
  intro p hp
  have hlam0 : 0 ≤ Real.log (((docs.length : ℝ) + 1) / ((c : ℝ) + 1)) := by
    apply Real.log_nonneg
    rw [le_div_iff (by positivity)]
    have hcr : (c : ℝ) ≤ (docs.length : ℝ) := by exact_mod_cast hcn
    linarith [hcr]
  have hvec : (cosineIndex Real.log Real.sqrt docs).vectors
      = (docs.map (fun d => cosTf (K := ℝ) d.2)).map (fun tf =>
          normalizeD Real.sqrt (tf.map (fun q =>
            (q.1, q.2 * Real.log (((docs.length : ℝ) + 1)
              / ((dget (cosineDf (docs.map (fun d => cosTf (K := ℝ) d.2))) q.1 0 : ℕ) + 1)))))) :=
    rfl
  have hcongr : ∀ tf ∈ docs.map (fun d => cosTf (K := ℝ) d.2),
      (tf.map (fun q =>
        (q.1, q.2 * Real.log (((docs.length : ℝ) + 1)
          / ((dget (cosineDf (docs.map (fun d => cosTf (K := ℝ) d.2))) q.1 0 : ℕ) + 1)))))
      = tf.map (fun q => (q.1, q.2 * Real.log (((docs.length : ℝ) + 1) / ((c : ℝ) + 1)))) := by
    intro tf htf
    apply List.map_congr_left
    intro q hq
    obtain ⟨m, hm⟩ := cosineDf_covers _ tf htf q hq
    have h1 : dget (cosineDf (docs.map (fun d => cosTf (K := ℝ) d.2))) q.1 0 = m :=
      dget_of_mem_nodup _ (q.1, m) 0 (cosineDf_keys_nodup _) hm
    have h2 : m = c := hdf (q.1, m) hm
    rw [h1, h2]
  have hvec2 : (cosineIndex Real.log Real.sqrt docs).vectors
      = (docs.map (fun d => cosTf (K := ℝ) d.2)).map (fun tf =>
          normalizeD Real.sqrt (tf.map (fun q =>
            (q.1, q.2 * Real.log (((docs.length : ℝ) + 1) / ((c : ℝ) + 1)))))) := by
    rw [hvec]
    apply List.map_congr_left
    intro tf htf
    rw [hcongr tf htf]
  simp only [cosinePairs] at hp ⊢
  rw [hvec2] at hp ⊢
  rw [List.getD_eq_getElem docs default hj]
  obtain ⟨x, hx, hpx⟩ := List.mem_map.mp hp
  obtain ⟨i, vx⟩ := x
  obtain ⟨hilt, hvx⟩ := List.mem_enum hx
  simp only [List.length_map] at hilt
  have hjlt2 : j < (((docs.map (fun d => cosTf (K := ℝ) d.2)).map (fun tf =>
      normalizeD Real.sqrt (tf.map (fun q =>
        (q.1, q.2 * Real.log (((docs.length : ℝ) + 1) / ((c : ℝ) + 1))))))).enum.map
      (fun p => (dotD (normalizeD Real.sqrt (cosTf (docs[j].2))) p.2, p.1))).length := by
    simp [hj]
  rw [List.getD_eq_getElem _ _ hjlt2, List.getElem_map, List.getElem_enum]
  rw [← hpx]
  simp only [List.getElem_map, List.getElem_enum, hvx]
  rw [List.getD_eq_getElem docs default hj]
  rcases eq_or_lt_of_le hlam0 with heq | hpos
  · have hza : ∀ tf : List (String × ℝ),
        ∀ r ∈ tf.map (fun q => (q.1, q.2 * Real.log (((docs.length : ℝ) + 1) / ((c : ℝ) + 1)))),
          r.2 = (0 : ℝ) := by
      intro tf r hr
      obtain ⟨q, hq, hqr⟩ := List.mem_map.mp hr
      rw [← hqr]
      simp only
      rw [← heq, mul_zero]
    rw [dotD_of_vals_zero _ _ (vals_normalizeD_zero _ _ (hza _)),
      dotD_of_vals_zero _ _ (vals_normalizeD_zero _ _ (hza _))]
  · rw [normalizeD_smul (cosTf docs[i].2) _ hpos (cosTf_pos _),
      normalizeD_smul (cosTf docs[j].2) _ hpos (cosTf_pos _)]
    rcases eq_or_ne (cosTf (K := ℝ) docs[j].2) [] with hj0 | hjne
    · rw [hj0]
      show dotD (normalizeD Real.sqrt []) _ ≤ dotD (normalizeD Real.sqrt []) _
      show dotD [] _ ≤ dotD [] _
      rw [dotD_nil_left, dotD_nil_left]
    · rw [dot_norm_self _ (cosTf_pos _) hjne (cosTf_keys_nodup _)]
      exact dot_norm_le_one _ _ (cosTf_pos _) (cosTf_pos _)
        (cosTf_keys_nodup _) (cosTf_keys_nodup _)

theorem C7_cosine_self_query_witness :
    ((cosinePairs Real.sqrt (cosineIndex Real.log Real.sqrt [("a", "cat"), ("b", "cat")])
        (([("a", "cat"), ("b", "cat")] : List Doc).getD 0 default).2).getD 1 (0, 0)).1
      ≤ ((cosinePairs Real.sqrt (cosineIndex Real.log Real.sqrt [("a", "cat"), ("b", "cat")])
        (([("a", "cat"), ("b", "cat")] : List Doc).getD 0 default).2).getD 0 (0, 0)).1 := by
  have h2 : cosTf (K := ℝ) "cat" = [("cat", 1)] := by
    rw [cosTf_cast, show cosTf (K := ℚ) "cat" = [("cat", 1)] from by decide]
    norm_num
  have hdf : ∀ p ∈ cosineDf (([("a", "cat"), ("b", "cat")] : List Doc).map
      (fun d => cosTf (K := ℝ) d.2)), p.2 = 2 := by
    intro p hp
    have hmap : ([("a", "cat"), ("b", "cat")] : List Doc).map (fun d => cosTf (K := ℝ) d.2)
        = ([[("cat", (1:ℚ))], [("cat", 1)]]).map
            (fun tf => tf.map (fun q => (q.1, (q.2 : ℝ)))) := by
      simp [h2]
    rw [hmap, cosineDf_map_cast,
      show cosineDf ([[("cat", (1:ℚ))], [("cat", 1)]]) = [("cat", 2)] from by decide] at hp
    simp only [List.mem_singleton] at hp
    rw [hp]
  have hlen : (cosinePairs Real.sqrt (cosineIndex Real.log Real.sqrt
      [("a", "cat"), ("b", "cat")])
      (([("a", "cat"), ("b", "cat")] : List Doc).getD 0 default).2).length = 2 := by
    simp [cosinePairs, cosineIndex]
  have h1lt : 1 < (cosinePairs Real.sqrt (cosineIndex Real.log Real.sqrt
      [("a", "cat"), ("b", "cat")])
      (([("a", "cat"), ("b", "cat")] : List Doc).getD 0 default).2).length := by
    rw [hlen]
    norm_num
  have hmem : (cosinePairs Real.sqrt (cosineIndex Real.log Real.sqrt
      [("a", "cat"), ("b", "cat")])
      (([("a", "cat"), ("b", "cat")] : List Doc).getD 0 default).2).getD 1 (0, 0)
      ∈ cosinePairs Real.sqrt (cosineIndex Real.log Real.sqrt [("a", "cat"), ("b", "cat")])
        (([("a", "cat"), ("b", "cat")] : List Doc).getD 0 default).2 := by
    rw [List.getD_eq_getElem _ _ h1lt]
    exact List.getElem_mem h1lt
  exact C7_cosine_self_query [("a", "cat"), ("b", "cat")] 0 (by norm_num) 2 (by norm_num) hdf _ hmem
